import Mathlib

/-!
Verification of the IndentBot indentation-normalization engine.

The source programs operate on wikitext strings.  We embed them shallowly
over `List Char`: a `Line` is the list of characters of one logical line
(including its trailing newline, when present), and a document is a
`List Char`.  External collaborators (the wikitext parser used for
protected spans and wikilink detection, the network page store) are
modelled as parameters; the marker-level algorithms themselves are
translated function-by-function from the repository.
-/

namespace IndentBot

abbrev Line := List Char

/-- The three indentation marker characters `:`, `*`, `#`
(`patterns` in the source use the character class `[:*#]`). -/
def isIndentChar (c : Char) : Bool := c = ':' || c = '*' || c = '#'

/-- `indent_text(line)`: the maximal leading run of marker characters
(`re.match(r'[:*#]*', line)[0]`). -/
def indent_text (l : Line) : Line := l.takeWhile isIndentChar

/-- `indent_lvl(line) = len(indent_text(line))`. -/
def indent_lvl (l : Line) : Nat := (indent_text l).length

/-- `visual_lvl(line)`: indent level plus one extra per `#`
(a `#` counts for two levels visually). -/
def visual_lvl (l : Line) : Nat := indent_lvl l + (indent_text l).count '#'

/-- Python regex `\s` on ASCII input. -/
def isSpaceChar (c : Char) : Bool :=
  c = ' ' || c = '\t' || c = '\n' || c = '\r' || c = '\x0b' || c = '\x0c'

/-- `is_blank_line(line)`: `re.fullmatch(r'\s+', line)`, i.e. nonempty and
all whitespace. -/
def is_blank_line (l : Line) : Bool := !l.isEmpty && l.all isSpaceChar

/-- Length of the longest common prefix of two lists
(the index `j` computed by `one_count` in `fixes.py`). -/
def commonPrefixLen : Line → Line → Nat
  | a :: as, b :: bs => if a = b then commonPrefixLen as bs + 1 else 0
  | _, _ => 0

/-- `one_count(a, b)`: number of `#` characters of `b` appearing strictly
after the longest common prefix of `a` and `b` (`fixes.py`). -/
def one_count (a b : Line) : Nat := ((b.drop (commonPrefixLen a b)).count '#')

/-! ### Line partitioning

`line_partition` walks the text and splits after every newline character
whose offset is not inside a protected span; the final segment after the
last accepted newline is always appended, even when empty.  The set of
protected offsets is produced by the external wikitext parser; it is the
parameter `bad` below.  The engine's `line_partition` used on pure
marker documents (no tables/templates/tags/comments, the fragment all
claims about the rewrite passes quantify over) has no protected offsets,
so it instantiates `bad` with the constantly-false predicate. -/

/-- Worker for `line_partition`: `i` is the offset of the head of the
remaining text, `cur` is the current segment accumulated in reverse. -/
def partitionGo (bad : Nat → Bool) : Nat → List Char → List Char → List Line
  | _, cur, [] => [cur.reverse]
  | i, cur, c :: rest =>
    if c = '\n' && !bad i then
      (cur.reverse ++ [c]) :: partitionGo bad (i + 1) [] rest
    else
      partitionGo bad (i + 1) (c :: cur) rest

/-- `line_partition` with an explicit protected-offset predicate. -/
def line_partition_by (bad : Nat → Bool) (text : List Char) : List Line :=
  partitionGo bad 0 [] text

/-- `line_partition(text)` on documents with no protected spans:
split at every newline, then append the final segment. -/
def line_partition (text : List Char) : List Line :=
  line_partition_by (fun _ => false) text

/-! ### `fixes.py`: the `GapFix` pass -/

/-- Constructor parameters of `GapFix`. -/
structure GapParams where
  min_closing_lvl : Nat
  max_gap : Nat
  allow_reset : Bool

/-- Defaults of `GapFix.__init__`: `min_closing_lvl=1, max_gap=1,
allow_reset=False`. -/
def defaultGapParams : GapParams := ⟨1, 1, false⟩

/-- A line matched by `re.match(r'([:*#]+) *\n\Z', line)` in
`GapFix._remove_indented_and_blank`: one or more marker characters, then
zero or more spaces, then a final newline and nothing else. -/
def placeholderB (l : Line) : Bool :=
  !(indent_text l).isEmpty &&
    ((l.drop (indent_text l).length).dropWhile (fun c => c = ' ') == ['\n'])

/-- Worker for `GapFix._remove_indented_and_blank`.  The source scans the
lines bottom-to-top with a shared index: whenever the scan sits on an
indented line (the anchor), the placeholder lines above it whose marker
run is shorter than the anchor's level are blanked, and the first line
breaking that run becomes the next anchor.  Here the input is the
reversed line list and `a` is the current anchor level; the returned
lines are the survivors (still in bottom-to-top order) with the count of
deleted lines. -/
def ribAux : List Line → Nat → List Line × Nat
  | [], _ => ([], 0)
  | l :: up, a =>
    if placeholderB l && decide (indent_lvl l < a) then
      let r := ribAux up a
      (r.1, r.2 + 1)
    else
      let r := ribAux up (indent_lvl l)
      (l :: r.1, r.2)

/-- `GapFix._remove_indented_and_blank(lines)`: deletes indented lines
with no content, returning the surviving lines and the number removed.
The bottom line is the initial anchor and is never removed. -/
def remove_indented_and_blank (lines : List Line) : List Line × Nat :=
  match lines.reverse with
  | [] => ([], 0)
  | b :: up =>
    let r := ribAux up (indent_lvl b)
    ((b :: r.1).reverse, r.2)

/-- Anchor level in effect after `ribAux` has processed `up` starting
from anchor `a` (used to state the characterization of the scan). -/
def anchorAfter : List Line → Nat → Nat
  | [], a => a
  | l :: up, a =>
    if placeholderB l && decide (indent_lvl l < a) then anchorAfter up a
    else anchorAfter up (indent_lvl l)

/-- `GapFix._removable_gap(opening, closing, glen)`: whether the gap of
`glen` blank lines between the opening line's indent `opening` and the
closing line's indent `closing` should be removed. -/
def removable_gap (p : GapParams) (opening closing : Line) (glen : Nat) : Bool :=
  if glen < 1 ∨ p.max_gap < glen then false
  else if closing.length < p.min_closing_lvl then false
  else if p.allow_reset = true ∧ closing.length = 1 ∧ 1 < opening.length then false
  else if one_count [] closing ≠ one_count opening closing then false
  else if closing.headD ' ' = '#' ∧ opening.headD ' ' ≠ '#' then false
  else if closing.length = 1 ∧ closing.headD ' ' ≠ opening.headD ' ' then false
  else true

/-- Forward scan of `GapFix.__call__`, with the loop state made
explicit: `none` means the scan is between openings (the source's
`lvl_i == 0` skipping); `some (l, gapRev)` means `l` is the current
indented opening line and `gapRev` holds, in reverse, the blank lines
seen after it so far.  When the next non-blank closing line `m` is
reached, the accumulated gap is removed exactly when
`_removable_gap(indent(l), indent(m), len(gap))` holds (each removed
blank line scores 1), and the scan continues from `m`. -/
def gapGo (p : GapParams) : Option (Line × List Line) → List Line → List Line × Nat
  | none, [] => ([], 0)
  | none, m :: tail =>
    if indent_lvl m = 0 then
      let r := gapGo p none tail
      (m :: r.1, r.2)
    else
      gapGo p (some (m, [])) tail
  | some (l, gapRev), [] => (l :: gapRev.reverse, 0)
  | some (l, gapRev), m :: tail =>
    if is_blank_line m then
      gapGo p (some (l, m :: gapRev)) tail
    else
      let r :=
        if indent_lvl m = 0 then
          let r0 := gapGo p none tail
          (m :: r0.1, r0.2)
        else
          gapGo p (some (m, [])) tail
      if removable_gap p (indent_text l) (indent_text m) gapRev.length then
        (l :: r.1, r.2 + gapRev.length)
      else
        (l :: (gapRev.reverse ++ r.1), r.2)

/-- The gap-closing scan of `GapFix.__call__`. -/
def gapScan (p : GapParams) (lines : List Line) : List Line × Nat :=
  gapGo p none lines

/-- The line list produced by `GapFix.__call__(text)` (before joining):
absorption stage, gap-closing scan, then the final filter that drops the
blanked lines. -/
def gapFixLines (p : GapParams) (text : List Char) : List Line :=
  ((gapScan p (remove_indented_and_blank (line_partition text)).1).1).filter
    (fun l => !l.isEmpty)

/-- `GapFix.__call__(text)`: returns the new text and the score (number
of lines removed by the absorption stage plus blank lines removed by the
gap-closing stage). -/
def gapFixCall (p : GapParams) (text : List Char) : List Char × Nat :=
  ((gapFixLines p text).flatten,
    (remove_indented_and_blank (line_partition text)).2 +
      (gapScan p (remove_indented_and_blank (line_partition text)).1).2)

/-- `x` and `y` occur as adjacent lines, in this order, in `L`. -/
def AdjPair (L : List Line) (x y : Line) : Prop := (x, y) ∈ L.zip L.tail

instance (L : List Line) (x y : Line) : Decidable (AdjPair L x y) := by
  unfold AdjPair; infer_instance

/-- Claim C2 as stated, instantiated at the gap pass (one of the "single
passes" it quantifies over): for any line `y` with predecessor `x` in the
input partition and predecessor `x'` in the gap-pass output, the count of
`#` characters past the longest common prefix of the pair's indents is
unchanged. -/
def numberingPreservedByGapFix : Prop :=
  ∀ (text : List Char) (x x' y : Line),
    AdjPair (line_partition text) x y →
    AdjPair (gapFixLines defaultGapParams text) x' y →
    one_count (indent_text x) (indent_text y) =
      one_count (indent_text x') (indent_text y)

/-- Claim C7 as stated: scanning backward, a line whose content is only
markers and whitespace followed by a strictly deeper line is deleted with
its marker text prepended to the next line's marker, and a line whose
immediately following line is not strictly deeper is kept. -/
def emptyAbsorptionClaim : Prop :=
  (∀ (L : List Line) (i : Nat), i + 1 < L.length →
    placeholderB (L.getD i []) = true →
    indent_lvl (L.getD i []) < indent_lvl (L.getD (i+1) []) →
    (indent_text (L.getD i []) ++ L.getD (i+1) []) ∈
      (remove_indented_and_blank L).1) ∧
  (∀ (L : List Line) (i : Nat), i + 1 < L.length →
    ¬ indent_lvl (L.getD i []) < indent_lvl (L.getD (i+1) []) →
    L.getD i [] ∈ (remove_indented_and_blank L).1)

/-- Claim C6 as stated: with the gap removal conditions as listed there,
in particular requiring the opening and closing markers to share a common
leading character. -/
def gapConditionsClaim : Prop :=
  ∀ (p : GapParams) (opening closing : Line) (glen : Nat),
    removable_gap p opening closing glen = true ↔
      (1 ≤ glen ∧ glen ≤ p.max_gap ∧
       p.min_closing_lvl ≤ closing.length ∧
       ¬ (p.allow_reset = true ∧ closing.length = 1 ∧ 1 < opening.length) ∧
       one_count [] closing = one_count opening closing ∧
       opening.headD ' ' = closing.headD ' ')

/-! ### Inline-comment and table scanners

`COMMENT_RE = r'<!--(.(?<!-->))*?-->'` in `patterns.py`: `<!--`, then
characters other than newline up to the first `-->`.  The regexes below
(`:*( |COMMENT)*\{\|`, `: ?<small[^>]*> ?Note:`,
`\n( |COMMENT)*(\{[{|]|<[^!]|\[\[(?:File|Image):)`) have prefix-disjoint
alternatives, so the deterministic scanners are equivalent to the
backtracking regex engine on them. -/

/-- After an opening `<!--`: find the first `-->` (failing on a newline,
since `.` does not match newlines here) and return the rest. -/
def commentEnd : List Char → Option (List Char)
  | '-' :: '-' :: '>' :: rest => some rest
  | '\n' :: _ => none
  | _ :: rest => commentEnd rest
  | [] => none

/-- Consume one comment `<!-- ... -->` at the head, if present. -/
def skipComment : List Char → Option (List Char)
  | '<' :: '!' :: '-' :: '-' :: rest => commentEnd rest
  | _ => none

/-- Worker for `( |COMMENT)*`: consume spaces and comments greedily.
Each step consumes at least one character, so fuel equal to the length
of the input suffices. -/
def skipSCF : Nat → List Char → List Char
  | 0, cs => cs
  | f + 1, cs =>
    match cs with
    | ' ' :: rest => skipSCF f rest
    | _ =>
      match skipComment cs with
      | some rest => skipSCF f rest
      | none => cs

/-- Consume the maximal `( |COMMENT)*` run at the head. -/
def skipSC (cs : List Char) : List Char := skipSCF cs.length cs

/-- `re.match(r':*( |COMMENT)*\{\|', line)`: the "line starts with a
table after optional colons" check of the style passes. -/
def startsTable (l : Line) : Bool :=
  match skipSC (l.dropWhile (fun c => c = ':')) with
  | '\x7b' :: '|' :: _ => true
  | _ => false

/-- `re.match(r': ?<small[^>]*> ?Note:', line)`: the "small note" check
of `fix_indent_style` in `indent.py`. -/
def smallNote (l : Line) : Bool :=
  match l with
  | ':' :: rest =>
    let r1 := match rest with
      | ' ' :: r => r
      | r => r
    if r1.take 6 = ['<', 's', 'm', 'a', 'l', 'l'] then
      match (r1.drop 6).dropWhile (fun c => c ≠ '>') with
      | '>' :: r3 =>
        let r4 := match r3 with
          | ' ' :: r => r
          | r => r
        r4.take 5 = ['N', 'o', 't', 'e', ':']
      | _ => false
    else false
  | _ => false

/-- The atom `(\{[{|]|<[^!])` of `has_linebreaking_newline` in
`indent.py`. -/
def lbAtomIP : List Char → Bool
  | '\x7b' :: '\x7b' :: _ => true
  | '\x7b' :: '|' :: _ => true
  | '<' :: c :: _ => decide (c ≠ '!')
  | _ => false

/-- `has_linebreaking_newline(line)` from `indent.py`: search for a
newline followed by spaces/comments and then a table, template or tag
opener. -/
def has_linebreaking_newline : List Char → Bool
  | [] => false
  | '\n' :: rest => lbAtomIP (skipSC rest) || has_linebreaking_newline rest
  | _ :: rest => has_linebreaking_newline rest

/-- `[[File:` / `[[Image:` recognizer (after the two brackets). -/
def isFileImageColon (cs : List Char) : Bool :=
  decide (cs.take 5 = ['F', 'i', 'l', 'e', ':']) ||
    decide (cs.take 6 = ['I', 'm', 'a', 'g', 'e', ':'])

/-- The atom `(\{[{|]|<[^!]|\[\[(?:File|Image):)` of
`has_linebreaking_newline` in `textfixer.py`. -/
def lbAtomTF : List Char → Bool
  | '\x7b' :: '\x7b' :: _ => true
  | '\x7b' :: '|' :: _ => true
  | '<' :: c :: _ => decide (c ≠ '!')
  | '[' :: '[' :: rest => isFileImageColon rest
  | _ => false

/-- `has_linebreaking_newline(line)` from `textfixer.py` (also counts
newlines preceding `File`/`Image` links). -/
def tf_has_linebreaking : List Char → Bool
  | [] => false
  | '\n' :: rest => lbAtomTF (skipSC rest) || tf_has_linebreaking rest
  | _ :: rest => tf_has_linebreaking rest

/-! ### `fixes.py`: the `StyleFix` pass -/

/-- Constructor parameters of `StyleFix`. -/
structure StyleParams where
  hide_extra_bullets : Nat
  keep_last_asterisk : Bool

/-- Defaults of `StyleFix.__init__`. -/
def defaultStyleParams : StyleParams := ⟨0, false⟩

/-- `indent2.rfind('*')`: index of the last `*`, if any. -/
def lastIdxOf (c : Char) : List Char → Option Nat
  | [] => none
  | x :: rest =>
    match lastIdxOf c rest with
    | some i => some (i + 1)
    | none => if x = c then some 0 else none

/-- The matching loop of `StyleFix._match_indent`: walk the previous
indent (`c1`, consumed as the list argument, already truncated to
`minlvl`) and the current indent `ind` (`c2 = ind[p2]`) in lockstep,
preferring `#`, absorbing a `#` over two non-`#` characters where the
source allows, and stopping as soon as the produced character desyncs
from the previous indent.  Returns the produced prefix and the final
`p2`. -/
def matchLoop (P : StyleParams) (ind : Line) (lvl : Nat) (la : Option Nat) :
    List Char → Nat → Line → Line × Nat
  | [], p2, acc => (acc, p2)
  | c1 :: prest, p2, acc =>
    if p2 < lvl then
      let c2 := ind.getD p2 ' '
      let cd : Char × Nat :=
        if P.keep_last_asterisk = true ∧ la = some p2 then ('*', 1)
        else if c2 = '#' then (c2, 1)
        else if c1 = '#' then
          if p2 + 2 < lvl ∧ ind.getD (p2 + 1) ' ' ≠ '#' ∧
              ¬ (P.keep_last_asterisk = true ∧ la = some (p2 + 1)) then ('#', 2)
          else (c2, 1)
        else (c1, 1)
      if cd.1 = c1 then matchLoop P ind lvl la prest (p2 + cd.2) (acc ++ [cd.1])
      else (acc ++ [cd.1], p2 + cd.2)
    else (acc, p2)

/-- `StyleFix._match_indent(prev_indent, indent2)`: compute the new
indent for `indent2` by matching against `prev_indent`; the final
character of `indent2` is restored at the end. -/
def match_indent (P : StyleParams) (prev ind : Line) : Line :=
  let lvl := ind.length
  let minlvl := min prev.length lvl
  let la := lastIdxOf '*' ind
  let r := matchLoop P ind lvl la (prev.take minlvl) 0 []
  let newInd :=
    if P.hide_extra_bullets = 2 then
      r.1 ++ (ind.drop r.2).map (fun c => if c = '*' then ':' else c)
    else if P.hide_extra_bullets = 1 then
      r.1 ++ (List.enumFrom r.2 (ind.drop r.2)).map
        (fun jc => if la = some jc.1 then '*'
          else if jc.2 = '*' then ':' else jc.2)
    else
      r.1 ++ ind.drop r.2
  newInd.dropLast ++ ind.drop (ind.length - 1)

/-- `abort_style_fix(lines)` (fixes.py): abort when some indented line
followed by another indented line contains a wikilink with a disallowed
newline.  The wikilink analysis is done by the external wikitext parser;
it is the oracle `amb`. -/
def abort_style_fix (amb : Line → Bool) (lines : List Line) : Bool :=
  (lines.zip lines.tail).any (fun q =>
    !(indent_text q.1).isEmpty && (!(indent_text q.2).isEmpty && amb q.1))

/-- The per-line walk of `StyleFix.__call__` (after the abort check),
with the previous indent as explicit state.  `begins_with_table` in the
source is stubbed to return the empty set, so no table branch appears;
`has_list_breaking_newline` consults the external parser and is the
oracle `breakNl`. -/
def styleGo (P : StyleParams) (breakNl : Line → Bool) :
    Line → List Line → List Line × Nat
  | _, [] => ([], 0)
  | prevIndent, line :: rest =>
    let oldInd := indent_text line
    let lvl := oldInd.length
    if lvl = 0 then
      let r := styleGo P breakNl [] rest
      (line :: r.1, r.2)
    else
      let newInd := match_indent P prevIndent oldInd
      let newLine := newInd ++ line.drop lvl
      let prev2 := if breakNl line then [] else newInd
      let r := styleGo P breakNl prev2 rest
      (newLine :: r.1, r.2 + (if newInd = oldInd then 0 else 1))

/-- `StyleFix.__call__(text)`: partition, abort check, then the style
walk; on abort the original text is returned with score 0. -/
def styleFixCall (P : StyleParams) (amb breakNl : Line → Bool)
    (text : List Char) : List Char × Nat :=
  let lines := line_partition text
  if abort_style_fix amb lines then (text, 0)
  else
    let r := styleGo P breakNl [] lines
    (r.1.flatten, r.2)

/-- `CombinedFix._abort_fix(lines)`: abort on an ambiguous wikilink in
an indented line (oracle `amb`), or when restyling some adjacent pair
would change the numbering count. -/
def combinedAbortFix (P : StyleParams) (amb : Line → Bool)
    (lines : List Line) : Bool :=
  lines.any (fun l => !(indent_text l).isEmpty && amb l) ||
    (lines.zip lines.tail).any (fun q =>
      let a := indent_text q.1
      let b := indent_text q.2
      decide (one_count a b ≠ one_count a (match_indent P a b)))

/-! ### The style memory (`indent_dict`) -/

/-- The style memory `indent_dict`, as a partial map from levels to
remembered indents.  `dictInit` is `{0: ''}`. -/
def dictInit : Nat → Option Line := fun k => if k = 0 then some [] else none

/-- `next(k for k in range(minlvl, -1, -1) if k in indent_dict)`: the
largest remembered key not exceeding `m` (0 is always remembered in
every reachable state). -/
def findMinlvl (d : Nat → Option Line) (m : Nat) : Nat :=
  Nat.findGreatest (fun k => (d k).isSome = true) m

/-- The shared inner while-loop of `fix_indent_style` (`indent.py`) and
`TextFixer._fix_styles`: the remembered indent (truncated to `minlvl`)
is consumed as the list argument (`c1`); `c2 = line[p2]`; a remembered
`#` absorbs a `::` of the line when at least one more character follows.
Returns the built prefix and the final `p2`. -/
def styleLoop (ind : Line) (lvl : Nat) : List Char → Nat → Line → Line × Nat
  | [], p2, acc => (acc, p2)
  | c1 :: mrest, p2, acc =>
    if p2 < lvl then
      let c2 := ind.getD p2 ' '
      if c1 = '#' then
        if p2 + 3 ≤ lvl ∧ ind.getD p2 ' ' = ':' ∧ ind.getD (p2 + 1) ' ' = ':' then
          styleLoop ind lvl mrest (p2 + 2) (acc ++ ['#'])
        else styleLoop ind lvl mrest (p2 + 1) (acc ++ [c2])
      else if c2 = '#' then styleLoop ind lvl mrest (p2 + 1) (acc ++ [c2])
      else styleLoop ind lvl mrest (p2 + 1) (acc ++ [c1])
    else (acc, p2)

/-! ### `indent.py`: the three passes of `fix_text` and the driver

The passes in `indent.py` return only the rewritten lines; following
`TextFixer.fix`, which reports a score for each pass, the embeddings
also return the pass's score (blank lines removed, indentation
characters removed, and line markers changed, respectively). -/

/-- The scan of `fix_gaps` (`indent.py`, defaults `squish=True`,
`single_only=False`), with the loop state explicit as in `gapGo`:
a gap before a closing line of level at least 1 is removed when it has
length exactly 1 or when the closing level exceeds 1. -/
def gapsIGo : Option (Line × List Line) → List Line → List Line × Nat
  | none, [] => ([], 0)
  | none, m :: tail =>
    if indent_lvl m = 0 then
      let r := gapsIGo none tail
      (m :: r.1, r.2)
    else
      gapsIGo (some (m, [])) tail
  | some (l, gapRev), [] => (l :: gapRev.reverse, 0)
  | some (l, gapRev), m :: tail =>
    if is_blank_line m then
      gapsIGo (some (l, m :: gapRev)) tail
    else
      let r :=
        if indent_lvl m = 0 then
          let r0 := gapsIGo none tail
          (m :: r0.1, r0.2)
        else
          gapsIGo (some (m, [])) tail
      if 1 ≤ indent_lvl m ∧ (gapRev.length = 1 ∨ 1 < indent_lvl m) then
        (l :: r.1, r.2 + gapRev.length)
      else
        (l :: (gapRev.reverse ++ r.1), r.2)

/-- `fix_gaps(lines)` (`indent.py`): the scan followed by the filter
that drops the blanked lines.  The score counts removed blank lines. -/
def fix_gaps (lines : List Line) : List Line × Nat :=
  let r := gapsIGo none lines
  (r.1.filter (fun l => !l.isEmpty), r.2)

/-- `lines[j] = l[:x] + l[x + diff - 1:]` with `diff = y - x`: cut the
marker characters between position `x` and position `y - 1` out of a
line. -/
def cut (x y : Nat) (l : Line) : Line := l.take x ++ l.drop (y - 1)

/-- The inner run loop of `fix_extra_indents`: cut every following line
while its level stays at or above `y`, stopping at the first line whose
level drops below `y`.  Also counts the lines cut. -/
def cutRest (x y : Nat) : List Line → List Line × Nat
  | [] => ([], 0)
  | l :: t =>
    if indent_lvl l < y then (l :: t, 0)
    else
      let r := cutRest x y t
      (cut x y l :: r.1, r.2 + 1)

/-- The outer loop of `fix_extra_indents` over adjacent pairs of the
(mutating) line list, as a fuel recursion: each step consumes one line
and one unit of fuel, and `cutRest` preserves length, so fuel equal to
the number of lines suffices.  The score counts the characters removed
(`diff - 1` for each line of the run, as in `TextFixer._fix_levels`). -/
def extraGoF : Nat → Line → List Line → List Line × Nat
  | 0, _, L => (L, 0)
  | _ + 1, _, [] => ([], 0)
  | f + 1, prev, l :: rest =>
    let x := indent_lvl prev
    let y := indent_lvl l
    if x + 1 < y ∧ visual_lvl prev + 1 < visual_lvl l then
      let c := cutRest x y rest
      let r := extraGoF f (cut x y l) c.1
      (cut x y l :: r.1, r.2 + (c.2 + 1) * (y - x - 1))
    else
      let r := extraGoF f l rest
      (l :: r.1, r.2)

/-- `fix_extra_indents(lines)` (`indent.py`): the pass starts from the
sentinel line `"\n"` inserted in front (and not returned). -/
def fix_extra_indents (lines : List Line) : List Line × Nat :=
  extraGoF lines.length ['\n'] lines

/-- The `new_indent` built by the body of `fix_indent_style` for an
indented line that is not a table or `<small>` note: the inner while
loop's prefix followed by the unconsumed rest of the old indent. -/
def styleNi (d : Nat → Option Line) (minlvl : Nat) (oldInd : Line) : Line :=
  let mem := ((d minlvl).getD []).take minlvl
  let lr := styleLoop oldInd oldInd.length mem 0 []
  lr.1 ++ oldInd.drop lr.2

/-- The per-line step of `fix_indent_style`: the line's new indent
together with the updated style memory.  Lines starting with a table or
a `<small>` note keep their indent and are not remembered. -/
def stylePr (d : Nat → Option Line) (prevLvl : Nat) (line : Line) :
    Line × (Nat → Option Line) :=
  let oldInd := indent_text line
  if startsTable line then (oldInd, d)
  else if smallNote line then (oldInd, d)
  else
    let ni := styleNi d (findMinlvl d (min oldInd.length prevLvl)) oldInd
    (ni, fun k => if k = ni.length then some ni else d k)

/-- The per-line walk of `fix_indent_style` (`indent.py`), with the
style memory and previous level as explicit state.  The memory resets
after a non-indented line or a line with a list-breaking newline. -/
def fix_indent_style_go (d : Nat → Option Line) (prevLvl : Nat) :
    List Line → List Line × Nat
  | [] => ([], 0)
  | line :: rest =>
    let lvl := indent_lvl line
    let pr := stylePr d prevLvl line
    let newLine := pr.1 ++ line.drop lvl
    let d2 := if lvl = 0 ∨ has_linebreaking_newline newLine then dictInit else pr.2
    let r := fix_indent_style_go d2 pr.1.length rest
    (newLine :: r.1, r.2 + (if pr.1 = indent_text line then 0 else 1))

/-- `fix_indent_style(lines)` (`indent.py`).  The score counts lines
whose indent changed, as in `TextFixer._fix_styles`. -/
def fix_indent_style (lines : List Line) : List Line × Nat :=
  fix_indent_style_go dictInit 0 lines

/-- One round of `fix_text`'s loop body: `fix_gaps`, then
`fix_extra_indents`, then `fix_indent_style`, collecting the three
scores. -/
def tripleS (L : List Line) : List Line × Nat × Nat × Nat :=
  let g := fix_gaps L
  let e := fix_extra_indents g.1
  let s := fix_indent_style e.1
  (s.1, g.2, e.2, s.2)

/-- The rewritten lines of one round. -/
def tripleL (L : List Line) : List Line := (tripleS L).1

/-- The iteration of `fix_text`: repeat the round until the line list is
unchanged.  The source's `while` loop carries no termination bound; the
fuel returns `none` when the loop has not converged within `fuel`
rounds. -/
def fixLoop : Nat → List Line → Option (List Line)
  | 0, _ => none
  | f + 1, L =>
    let M := tripleL L
    if M = L then some L else fixLoop f M

/-- `fix_text(title, text)` (`indent.py`): partition, iterate the three
passes to a fixed point, and join. -/
def fix_text (fuel : Nat) (text : List Char) : Option (List Char) :=
  (fixLoop fuel (line_partition text)).map List.flatten

/-! ### `textfixer.py`: `TextFixer._fix_styles` -/

/-- The counting loop of `bulleted_or_unbulleted`: over the contiguous
run of lines with level at least `level` (stopping early at a line of
exactly `level` whose indent ends in neither `:` nor `*`), count the
lines of exactly `level` ending in `*` (`b`) and in `:` (`u`). -/
def votes (level : Nat) : List Line → Nat → Nat → Nat × Nat
  | [], b, u => (b, u)
  | line :: rest, b, u =>
    let s := indent_text line
    if s.length < level then (b, u)
    else if s.length = level then
      if s.getLastD ' ' = ':' then votes level rest b (u + 1)
      else if s.getLastD ' ' = '*' then votes level rest (b + 1) u
      else (b, u)
    else votes level rest b u

/-- `bulleted_or_unbulleted(lines, level)` (`textfixer.py`): the final
character that wins the count; on a tie, the first line's own final
indent character. -/
def bulleted_or_unbulleted (lines : List Line) (level : Nat) : Char :=
  let bu := votes level lines 0 0
  if bu.2 < bu.1 then '*'
  else if bu.1 < bu.2 then ':'
  else (indent_text (lines.headD [])).getLastD ' '

/-- The per-line walk of `TextFixer._fix_styles`: as
`fix_indent_style_go`, but lines starting a new deeper level whose
indent does not end in `#` get their final character from
`bulleted_or_unbulleted`, table-opening lines are remembered verbatim,
and on a level decrease the deeper remembered keys are purged.  Returns
the rewritten lines with the scores `(score, score_final)`. -/
def tf_fix_styles_go (d : Nat → Option Line) (prevLvl : Nat) :
    List Line → List Line × Nat × Nat
  | [] => ([], 0, 0)
  | line :: rest =>
    let oldInd := indent_text line
    let lvl := oldInd.length
    if lvl = 0 then
      let r := tf_fix_styles_go dictInit 0 rest
      (line :: r.1, r.2)
    else
      let minlvl := findMinlvl d (min lvl prevLvl)
      let pr : Line × (Nat → Option Line) :=
        if startsTable line then
          (oldInd, fun k => if k = lvl then some oldInd else d k)
        else
          let mem := ((d minlvl).getD []).take minlvl
          let lr := styleLoop oldInd lvl mem 0 []
          let ni0 := lr.1 ++ oldInd.drop lr.2
          let ni :=
            if prevLvl < lvl ∧ oldInd.getLastD ' ' ≠ '#' then
              ni0.dropLast ++ [bulleted_or_unbulleted (line :: rest) lvl]
            else ni0
          (ni, fun k => if k = ni.length then some ni else d k)
      let newLine := pr.1 ++ line.drop lvl
      let newLvl := pr.1.length
      let d2 :=
        if tf_has_linebreaking newLine then dictInit
        else if newLvl < prevLvl then (fun k => if newLvl < k then none else pr.2 k)
        else pr.2
      let r := tf_fix_styles_go d2 newLvl rest
      (newLine :: r.1,
        r.2.1 + (if pr.1 = oldInd then 0 else 1),
        r.2.2 + (if pr.1.getLastD ' ' = oldInd.getLastD ' ' then 0 else 1))

/-- `TextFixer._fix_styles` on a line list. -/
def tf_fix_styles (lines : List Line) : List Line × Nat × Nat :=
  tf_fix_styles_go dictInit 0 lines

/-- The level remembered from the previous line when `_fix_styles`
reaches output position `i` (0 at the start; otherwise the indent level
of the previous output line). -/
def prevOutLvl (out : List Line) (i : Nat) : Nat :=
  if i = 0 then 0 else indent_lvl (out.getD (i - 1) [])

/-- The majority vote exactly as claim C4 words it: ties favor `*`. -/
def specVoteStar (lines : List Line) (level : Nat) : Char :=
  let bu := votes level lines 0 0
  if bu.2 < bu.1 then '*' else if bu.1 < bu.2 then ':' else '*'

/-! ### `pagequeue.py`: the `PageQueue`

The queue holds mutable `[edit_time, count, page]` entries in a
`heapq` binary heap, with lazy deletion: `remove_page` marks the entry
removed through `_entry_finder`.  The heap is modelled observationally
as a list kept sorted by `(prio, count)` (what `heappush`/`heappop`
provide); entries are identified by their unique counter value, and
pages by their title (a `Nat`).  The network fetch
(`page.get(force=True)` followed by `page.editTime()`) is the oracle
`fetch`, returning `none` when the fetch raises
`IsRedirectPageError`/`NoPageError`. -/

/-- One heap entry `[prio, count, page]` plus the tombstone mark. -/
structure PQEntry where
  prio : Nat
  count : Nat
  title : Nat
  removed : Bool
deriving DecidableEq

/-- The `PageQueue` state. -/
structure PageQueue where
  pq : List PQEntry
  len : Nat
  finder : List (Nat × Nat)
  counter : Nat
deriving DecidableEq

/-- A fresh queue (`itertools.count(start=1)`). -/
def emptyPQ : PageQueue := ⟨[], 0, [], 1⟩

/-- The heap order on `[prio, count, ...]` entries. -/
def entryLE (a b : PQEntry) : Bool :=
  decide (a.prio < b.prio) ||
    (decide (a.prio = b.prio) && decide (a.count ≤ b.count))

/-- `heapq.heappush`: insertion keeping the list sorted. -/
def heapPush (e : PQEntry) : List PQEntry → List PQEntry
  | [] => [e]
  | x :: t => if entryLE e x then e :: x :: t else x :: heapPush e t

/-- `entry[-1] = self._REMOVED` on the (unique) entry with counter `c`. -/
def tombstone (c : Nat) : List PQEntry → List PQEntry :=
  List.map (fun e => if e.count = c then { e with removed := true } else e)

def finderLookup (f : List (Nat × Nat)) (t : Nat) : Option Nat :=
  (f.find? (fun q => decide (q.1 = t))).map Prod.snd

def finderErase (f : List (Nat × Nat)) (t : Nat) : List (Nat × Nat) :=
  f.filter (fun q => !decide (q.1 = t))

def finderInsert (f : List (Nat × Nat)) (t c : Nat) : List (Nat × Nat) :=
  (t, c) :: finderErase f t

/-- The non-tombstoned heap entries. -/
def liveEntries (pq : List PQEntry) : List PQEntry :=
  pq.filter (fun e => !e.removed)

/-- `PageQueue.remove_page(title)`: pop the finder entry and tombstone
its heap entry (the source raises `KeyError` when the title is absent;
`add_page` only calls it on present titles). -/
def remove_page (st : PageQueue) (t : Nat) : PageQueue :=
  match finderLookup st.finder t with
  | none => st
  | some c =>
    { st with pq := tombstone c st.pq,
              finder := finderErase st.finder t,
              len := st.len - 1 }

/-- `PageQueue.add_page(page)`: coalesce (tombstone any live entry of
the same title), then push a fresh entry carrying the page's edit
time. -/
def add_page (st : PageQueue) (t : Nat) (etime : Nat) : PageQueue :=
  let st1 := if (finderLookup st.finder t).isSome then remove_page st t else st
  { pq := heapPush ⟨etime, st1.counter, t, false⟩ st1.pq,
    len := st1.len + 1,
    finder := finderInsert st1.finder t st1.counter,
    counter := st1.counter + 1 }

/-- Worker for `PageQueue.pop_page()`. -/
def popPageAux (len : Nat) (finder : List (Nat × Nat)) (counter : Nat) :
    List PQEntry → Option ((Nat × Nat) × PageQueue)
  | [] => none
  | e :: rest =>
    if e.removed then popPageAux len finder counter rest
    else some ((e.title, e.prio),
      ⟨rest, len - 1, finderErase finder e.title, counter⟩)

/-- `PageQueue.pop_page()`: pop heap entries until a live one, remove it
from the finder and return its page (title and remembered time);
`none` models the `KeyError` on an empty queue. -/
def pop_page (st : PageQueue) : Option ((Nat × Nat) × PageQueue) :=
  popPageAux st.len st.finder st.counter st.pq

/-- `PageQueue.pop_up_to(priority)`: look at the heap minimum; stop when
its priority exceeds the cutoff; discard a tombstoned minimum; otherwise
re-fetch the page — on a fetch error discard it via `pop_page`, on a
fresh edit time beyond the cutoff re-insert it via `add_page`, and
otherwise yield it via `pop_page`.  Fuel-bounded (`none` = the loop did
not finish within `fuel` iterations). -/
def pop_up_to (fetch : Nat → Option Nat) (cutoff : Nat) :
    Nat → PageQueue → Option (List (Nat × Nat) × PageQueue)
  | 0, _ => none
  | f + 1, st =>
    match st.pq with
    | [] => some ([], st)
    | e :: rest =>
      if cutoff < e.prio then some ([], st)
      else if e.removed then pop_up_to fetch cutoff f { st with pq := rest }
      else
        match fetch e.title with
        | none =>
          match pop_page st with
          | none => none
          | some (_, st2) => pop_up_to fetch cutoff f st2
        | some tnew =>
          if cutoff < tnew then
            pop_up_to fetch cutoff f (add_page st e.title tnew)
          else
            match pop_page st with
            | none => none
            | some (_, st2) =>
              match pop_up_to fetch cutoff f st2 with
              | none => none
              | some (ys, st3) => some ((e.title, tnew) :: ys, st3)

/-- The state invariant used for the queue claims: live entries are
exactly the finder's image, counters are below the next counter value
and distinct, and `_len` counts the live entries. -/
def PQInv (st : PageQueue) : Prop :=
  (∀ t c, finderLookup st.finder t = some c →
    ∃ e ∈ st.pq, e.removed = false ∧ e.title = t ∧ e.count = c) ∧
  (∀ e ∈ st.pq, e.removed = false →
    finderLookup st.finder e.title = some e.count) ∧
  (∀ e ∈ st.pq, e.count < st.counter) ∧
  (st.pq.map PQEntry.count).Nodup ∧
  st.len = (liveEntries st.pq).length

/-- Claim C4 as stated, about `TextFixer._fix_styles`: a line whose
level does not exceed the previously remembered level keeps its final
marker character, and a line starting a new deeper level (not ending in
`#`) gets its final character by majority vote with ties favoring `*`. -/
def stylePassFinalCharClaim : Prop :=
  ∀ (L : List Line) (i : Nat), i < L.length →
    0 < indent_lvl (L.getD i []) →
    (indent_lvl (L.getD i []) ≤ prevOutLvl (tf_fix_styles L).1 i →
      (indent_text ((tf_fix_styles L).1.getD i [])).getLastD ' ' =
        (indent_text (L.getD i [])).getLastD ' ') ∧
    (prevOutLvl (tf_fix_styles L).1 i < indent_lvl (L.getD i []) →
      (indent_text (L.getD i [])).getLastD ' ' ≠ '#' →
      (indent_text ((tf_fix_styles L).1.getD i [])).getLastD ' ' =
        specVoteStar (L.drop i) (indent_lvl (L.getD i [])))

/-! ### Line well-formedness

The passes of `fix_text` exchange line lists whose entries came out of
`line_partition`: every line but the last ends in its only newline, and
the last line has no newline before its final character.  These shape
predicates, and the character-count measure, drive the idempotence
analysis of the `fix_text` driver (claim C1). -/

/-- No newline among the characters of `s`. -/
def noNl (s : Line) : Bool := s.all (fun c => c ≠ '\n')

/-- Every character of `s` is a marker character. -/
def allInd (s : Line) : Bool := s.all isIndentChar

/-- Well-formed line list: every line but the last ends in a newline and
has no earlier newline; the last line has no newline before its final
character. -/
def wfLines : List Line → Prop
  | [] => True
  | [l] => noNl l.dropLast = true
  | l :: rest => (l.getLast? = some '\n' ∧ noNl l.dropLast = true) ∧ wfLines rest

/-- Total number of characters of a line list. -/
def charSum (L : List Line) : Nat := (L.map List.length).sum

/-- The lines held by a scan state of `gapsIGo`: the pending opening
line followed by the accumulated gap (stored reversed). -/
def stLines : Option (Line × List Line) → List Line
  | none => []
  | some (l, g) => l :: g.reverse

end IndentBot

namespace IndentBot

/-! ### Theorems: partition round-trip (claim C10) -/

theorem getLast?_cons_ne {α : Type} {a : α} {l : List α} (h : l ≠ []) :
    (a :: l).getLast? = l.getLast? := by
  rw [show a :: l = [a] ++ l from rfl]
  exact List.getLast?_append_of_ne_nil [a] h

theorem partitionGo_join (bad : Nat → Bool) :
    ∀ (text : List Char) (i : Nat) (cur : List Char),
      (partitionGo bad i cur text).flatten = cur.reverse ++ text := by
  intro text
  induction text with
  | nil => intro i cur; simp [partitionGo]
  | cons c rest ih =>
    intro i cur
    by_cases h : (c = '\n' && !bad i) = true
    · simp [partitionGo, h, ih]
    · simp [partitionGo, h, ih]

theorem partitionGo_ne_nil (bad : Nat → Bool) :
    ∀ (text : List Char) (i : Nat) (cur : List Char),
      partitionGo bad i cur text ≠ [] := by
  intro text
  induction text with
  | nil => intro i cur; simp [partitionGo]
  | cons c rest ih =>
    intro i cur
    by_cases h : (c = '\n' && !bad i) = true
    · simp [partitionGo, h]
    · simp [partitionGo, h, ih]

theorem partitionGo_getLast (bad : Nat → Bool) :
    ∀ (text : List Char) (i : Nat) (cur : List Char),
      text ≠ [] → text.getLast? = some '\n' → bad (i + text.length - 1) = false →
      (partitionGo bad i cur text).getLast? = some [] := by
  intro text
  induction text with
  | nil => intro i cur h; exact absurd rfl h
  | cons c rest ih =>
    intro i cur _ hlast hbad
    rcases List.eq_nil_or_concat rest with hr | ⟨_, _, _⟩
    · subst hr
      simp only [List.getLast?_singleton, Option.some_inj] at hlast
      subst hlast
      simp only [List.length_cons, List.length_nil, Nat.add_sub_cancel] at hbad
      simp [partitionGo, hbad]
    · have hrn : rest ≠ [] := by
        rintro rfl; simp at *
      have hlast' : rest.getLast? = some '\n' := by
        rwa [getLast?_cons_ne hrn] at hlast
      have hbad' : bad (i + 1 + rest.length - 1) = false := by
        have : i + 1 + rest.length - 1 = i + (rest.length + 1) - 1 := by omega
        rw [this]
        simpa using hbad
      by_cases h : (c = '\n' && !bad i) = true
      · simp only [partitionGo]
        rw [if_pos h, getLast?_cons_ne (partitionGo_ne_nil bad rest (i+1) [])]
        exact ih (i + 1) [] hrn hlast' hbad'
      · simp only [partitionGo]
        rw [if_neg h]
        exact ih (i + 1) (c :: cur) hrn hlast' hbad'

/-- Claim C10: for every protected-span oracle and every input text,
concatenating the lines produced by `line_partition` reconstructs the
input byte-for-byte, the result is never empty (the final segment after
the last accepted newline is always appended as a trailing line), and
when the text ends in an accepted newline that trailing line is the
empty string. -/
theorem line_partition_roundtrip (bad : Nat → Bool) (text : List Char) :
    (line_partition_by bad text).flatten = text ∧
    line_partition_by bad text ≠ [] ∧
    (text ≠ [] → text.getLast? = some '\n' → bad (text.length - 1) = false →
      (line_partition_by bad text).getLast? = some []) := by
  refine ⟨?_, ?_, ?_⟩
  · simpa using partitionGo_join bad text 0 []
  · exact partitionGo_ne_nil bad text 0 []
  · intro h1 h2 h3
    exact partitionGo_getLast bad text 0 [] h1 h2 (by simpa using h3)

/-! ### Theorems: the absorption stage of `GapFix` (claim C7) -/

theorem getLast?_cons_getLastD {α : Type} (l : List α) (b : α) :
    (b :: l).getLast? = some (l.getLastD b) := by
  induction l generalizing b with
  | nil => rfl
  | cons x s ih =>
    rw [List.getLastD_cons, getLast?_cons_ne (a := b) (l := x :: s) (by simp)]
    exact ih x

theorem headD_reverse_cons {α : Type} (l : List α) (b : α) (d : α) :
    ((b :: l).reverse).headD d = l.getLastD b := by
  rw [List.headD_eq_head?, List.head?_reverse, getLast?_cons_getLastD]
  rfl

theorem getLastD_map_lvl (l : List Line) : ∀ (b : Line),
    (l.map indent_lvl).getLastD (indent_lvl b) = indent_lvl (l.getLastD b) := by
  induction l with
  | nil => intro b; rfl
  | cons x s ih => intro b; rw [List.map_cons, List.getLastD_cons, List.getLastD_cons, ih x]

theorem ribAux_append (l : Line) :
    ∀ (up : List Line) (a : Nat),
      ribAux (up ++ [l]) a =
        if placeholderB l && decide (indent_lvl l < anchorAfter up a) then
          ((ribAux up a).1, (ribAux up a).2 + 1)
        else ((ribAux up a).1 ++ [l], (ribAux up a).2) := by
  intro up
  induction up with
  | nil =>
    intro a
    by_cases h : (placeholderB l && decide (indent_lvl l < a)) = true
    · simp [ribAux, anchorAfter, h]
    · simp [ribAux, anchorAfter, h]
  | cons x up ih =>
    intro a
    by_cases h : (placeholderB x && decide (indent_lvl x < a)) = true
    · have e1 : ribAux ((x :: up) ++ [l]) a =
          ((ribAux (up ++ [l]) a).1, (ribAux (up ++ [l]) a).2 + 1) := by
        simp [ribAux, h]
      have e2 : ribAux (x :: up) a = ((ribAux up a).1, (ribAux up a).2 + 1) := by
        simp [ribAux, h]
      have e3 : anchorAfter (x :: up) a = anchorAfter up a := by
        simp [anchorAfter, h]
      rw [e1, ih a, e2, e3]
      by_cases h2 : (placeholderB l && decide (indent_lvl l < anchorAfter up a)) = true
      · simp [h2]
      · simp [h2]
    · have e1 : ribAux ((x :: up) ++ [l]) a =
          (x :: (ribAux (up ++ [l]) (indent_lvl x)).1,
            (ribAux (up ++ [l]) (indent_lvl x)).2) := by
        simp [ribAux, h]
      have e2 : ribAux (x :: up) a =
          (x :: (ribAux up (indent_lvl x)).1, (ribAux up (indent_lvl x)).2) := by
        simp [ribAux, h]
      have e3 : anchorAfter (x :: up) a = anchorAfter up (indent_lvl x) := by
        simp [anchorAfter, h]
      rw [e1, ih (indent_lvl x), e2, e3]
      by_cases h2 :
          (placeholderB l && decide (indent_lvl l < anchorAfter up (indent_lvl x))) = true
      · simp [h2]
      · simp [h2]

theorem anchorAfter_eq (up : List Line) : ∀ (a : Nat),
    anchorAfter up a = ((ribAux up a).1.map indent_lvl).getLastD a := by
  induction up with
  | nil => intro a; rfl
  | cons x up ih =>
    intro a
    by_cases h : (placeholderB x && decide (indent_lvl x < a)) = true
    · have e2 : ribAux (x :: up) a = ((ribAux up a).1, (ribAux up a).2 + 1) := by
        simp [ribAux, h]
      have e3 : anchorAfter (x :: up) a = anchorAfter up a := by
        simp [anchorAfter, h]
      rw [e3, e2, ih a]
    · have e2 : ribAux (x :: up) a =
          (x :: (ribAux up (indent_lvl x)).1, (ribAux up (indent_lvl x)).2) := by
        simp [ribAux, h]
      have e3 : anchorAfter (x :: up) a = anchorAfter up (indent_lvl x) := by
        simp [anchorAfter, h]
      rw [e3, e2, ih (indent_lvl x)]
      simp only [List.map_cons, List.getLastD_cons]

/-- The absorption stage, characterized one line at a time: a line is
deleted (scoring 1, prepending nothing) exactly when it is a placeholder
(markers, then spaces, then a newline) whose level is strictly below the
level of the nearest following line that survives; every other line is
kept unchanged. -/
theorem remove_indented_and_blank_cons (l : Line) (rest : List Line) :
    remove_indented_and_blank (l :: rest) =
      if placeholderB l && decide (indent_lvl l <
            indent_lvl ((remove_indented_and_blank rest).1.headD [])) then
        ((remove_indented_and_blank rest).1, (remove_indented_and_blank rest).2 + 1)
      else
        (l :: (remove_indented_and_blank rest).1, (remove_indented_and_blank rest).2) := by
  rcases hrev : rest.reverse with _ | ⟨b, up⟩
  · have hr : rest = [] := by simpa using congrArg List.reverse hrev
    subst hr
    simp [remove_indented_and_blank, ribAux, indent_lvl, indent_text]
  · have hr : rest = up.reverse ++ [b] := by
      have := congrArg List.reverse hrev
      simpa using this
    have hlrev : (l :: rest).reverse = b :: (up ++ [l]) := by
      simp [hr]
    have hrest : remove_indented_and_blank rest =
        ((b :: (ribAux up (indent_lvl b)).1).reverse, (ribAux up (indent_lvl b)).2) := by
      simp only [remove_indented_and_blank, hrev]
    have hhead : (remove_indented_and_blank rest).1.headD [] =
        (ribAux up (indent_lvl b)).1.getLastD b := by
      rw [hrest]; exact headD_reverse_cons _ b []
    have hanchor : anchorAfter up (indent_lvl b) =
        indent_lvl ((remove_indented_and_blank rest).1.headD []) := by
      rw [hhead, anchorAfter_eq, getLastD_map_lvl]
    have hmain : remove_indented_and_blank (l :: rest) =
        ((b :: (ribAux (up ++ [l]) (indent_lvl b)).1).reverse,
          (ribAux (up ++ [l]) (indent_lvl b)).2) := by
      simp only [remove_indented_and_blank, hlrev]
    rw [hmain, ribAux_append, hanchor, hrest]
    split_ifs with h
    · simp
    · simp [List.reverse_append]

/-- Claim C7 as stated is false: in `["::\n", ":\n", ":::a\n"]` the line
`"::\n"` is not followed by a strictly deeper line (its successor `":\n"`
has level 1 < 2), yet the absorption stage deletes it, because the
nearest *surviving* following line `":::a\n"` has level 3; nothing is
prepended either. -/
theorem emptyAbsorptionClaim_false : ¬ emptyAbsorptionClaim := by
  intro h
  have hk := h.2 ["::\n".toList, ":\n".toList, ":::a\n".toList] 0 (by decide) (by decide)
  revert hk
  decide

/-- Witness-style companion for the amended C7: evaluating the
absorption stage on the counterexample and on a kept configuration via
the characterization theorem. -/
theorem remove_indented_and_blank_cons_witness :
    remove_indented_and_blank [":\n".toList, "::a\n".toList] =
      (["::a\n".toList], 1) ∧
    remove_indented_and_blank ["::\n".toList, ":\n".toList, ":::a\n".toList] =
      ([":::a\n".toList], 2) := by
  constructor
  · rw [remove_indented_and_blank_cons]; decide
  · rw [remove_indented_and_blank_cons, remove_indented_and_blank_cons]; decide

/-! ### Theorems: gap removal conditions (claim C6) -/

/-- The exact removal conditions of `GapFix._removable_gap`: the claimed
conditions hold except that the leading-character requirement is weaker
than "share a common leading character": the check only rejects a closing
`#`-line whose opening does not start with `#`, and a level-1 closing
line whose leading character differs from the opening's. -/
theorem removable_gap_iff (p : GapParams) (opening closing : Line) (glen : Nat) :
    removable_gap p opening closing glen = true ↔
      (1 ≤ glen ∧ glen ≤ p.max_gap ∧
       p.min_closing_lvl ≤ closing.length ∧
       ¬ (p.allow_reset = true ∧ closing.length = 1 ∧ 1 < opening.length) ∧
       one_count [] closing = one_count opening closing ∧
       ¬ (closing.headD ' ' = '#' ∧ opening.headD ' ' ≠ '#') ∧
       ¬ (closing.length = 1 ∧ closing.headD ' ' ≠ opening.headD ' ')) := by
  unfold removable_gap
  split_ifs with h1 h2 h3 h4 h5 h6
  · constructor
    · intro h; cases h
    · intro h; omega
  · constructor
    · intro h; cases h
    · intro h; omega
  · constructor
    · intro h; cases h
    · intro h; exact absurd h3 h.2.2.2.1
  · constructor
    · intro h; cases h
    · intro h; exact absurd h.2.2.2.2.1 h4
  · constructor
    · intro h; cases h
    · intro h; exact absurd h5 h.2.2.2.2.2.1
  · constructor
    · intro h; cases h
    · intro h; exact absurd h6 h.2.2.2.2.2.2
  · constructor
    · intro _; exact ⟨by omega, by omega, by omega, h3, by omega, h5, h6⟩
    · intro _; rfl

/-- Claim C6 as stated is false: with the default parameters, the gap
between opening `":"` and closing `"*:"` (gap length 1) is removed even
though the markers do not share a leading character. -/
theorem gapConditionsClaim_false : ¬ gapConditionsClaim := by
  intro h
  have := (h defaultGapParams [':'] ['*', ':'] 1).mp (by decide)
  exact absurd this.2.2.2.2.2 (by decide)

/-- Witness for the amended C6 at a concrete instance: the full condition
list evaluates the removability of the `":"` / `"*:"` gap to true. -/
theorem removable_gap_iff_witness :
    removable_gap defaultGapParams [':'] ['*', ':'] 1 = true ∧
    (1 ≤ 1 ∧ 1 ≤ defaultGapParams.max_gap ∧
       defaultGapParams.min_closing_lvl ≤ (['*', ':'] : Line).length ∧
       ¬ (defaultGapParams.allow_reset = true ∧ (['*', ':'] : Line).length = 1 ∧
            1 < ([':'] : Line).length) ∧
       one_count [] ['*', ':'] = one_count [':'] ['*', ':'] ∧
       ¬ ((['*', ':'] : Line).headD ' ' = '#' ∧ ([':'] : Line).headD ' ' ≠ '#') ∧
       ¬ ((['*', ':'] : Line).length = 1 ∧
            (['*', ':'] : Line).headD ' ' ≠ ([':'] : Line).headD ' ')) := by
  constructor
  · decide
  · exact (removable_gap_iff defaultGapParams [':'] ['*', ':'] 1).mp (by decide)

/-! ### Theorems: numbering preservation (claim C2) -/

/-- Claim C2's universal single-pass invariance is false: on
`"# a\n##\n##: b\n"` the absorption stage of the gap pass deletes the
placeholder line `"##\n"`, making `"# a\n"` the new predecessor of
`"##: b\n"`; the `#`-count of `"##: b\n"` past the common prefix with its
predecessor changes from 0 (against `"##"`) to 1 (against `"#"`). -/
theorem numberingPreservedByGapFix_false : ¬ numberingPreservedByGapFix := by
  intro h
  have := h ("# a\n##\n##: b\n".toList) ("##\n".toList) ("# a\n".toList)
    ("##: b\n".toList) (by decide) (by decide)
  revert this
  decide

/-! ### Theorems: queue ordering and dwell delay (claim C8) -/

theorem pop_up_to_yield_fetch (fetch : Nat → Option Nat) (cutoff : Nat) :
    ∀ (f : Nat) (st : PageQueue) (ys : List (Nat × Nat)) (st' : PageQueue),
      pop_up_to fetch cutoff f st = some (ys, st') →
      ∀ p ∈ ys, fetch p.1 = some p.2 ∧ p.2 ≤ cutoff := by
  intro f
  induction f with
  | zero => intro st ys st' h; cases h
  | succ f ih =>
    intro st ys st' h p hp
    obtain ⟨pq, len, fdr, ctr⟩ := st
    rcases pq with _ | ⟨e, rest⟩ <;> simp only [pop_up_to] at h
    · rw [Option.some_inj] at h
      injection h with h1 h2
      subst h1
      cases hp
    · split at h
      · rw [Option.some_inj] at h
        injection h with h1 h2
        subst h1
        cases hp
      · split at h
        · exact ih _ _ _ h p hp
        · split at h
          · split at h
            · cases h
            · exact ih _ _ _ h p hp
          next tnew hf =>
            split at h
            · exact ih _ _ _ h p hp
            next hnew =>
              split at h
              · cases h
              · split at h
                · cases h
                next ys0 st3 hrec =>
                  rw [Option.some_inj] at h
                  injection h with h1 h2
                  subst h1
                  rcases List.mem_cons.mp hp with hp | hp
                  · subst hp
                    exact ⟨hf, Nat.le_of_not_lt hnew⟩
                  · exact ih _ _ _ hrec p hp

theorem popPageAux_state (len : Nat) (finder : List (Nat × Nat)) (counter : Nat) :
    ∀ (pq : List PQEntry) (q : Nat × Nat) (st2 : PageQueue),
      popPageAux len finder counter pq = some (q, st2) →
      ∃ pre e post, pq = pre ++ e :: post ∧ (∀ x ∈ pre, x.removed = true) ∧
        e.removed = false ∧ q = (e.title, e.prio) ∧
        st2 = ⟨post, len - 1, finderErase finder e.title, counter⟩ := by
  intro pq
  induction pq with
  | nil => intro q st2 h; cases h
  | cons e rest ih =>
    intro q st2 h
    rw [popPageAux] at h
    by_cases hrem : e.removed = true
    · rw [if_pos hrem] at h
      obtain ⟨pre, e', post, h1, h2, h3, h4, h5⟩ := ih q st2 h
      refine ⟨e :: pre, e', post, ?_, ?_, h3, h4, h5⟩
      · rw [h1, List.cons_append]
      · intro x hx
        rcases List.mem_cons.mp hx with hx | hx
        · subst hx; exact hrem
        · exact h2 x hx
    · rw [if_neg hrem, Option.some_inj] at h
      injection h with h1 h2
      subst h1
      subst h2
      refine ⟨[], e, rest, rfl, ?_, ?_, rfl, rfl⟩
      · intro x hx
        cases hx
      · exact Bool.not_eq_true _ ▸ hrem

theorem pop_up_to_sorted (fetch : Nat → Option Nat) (cutoff : Nat) :
    ∀ (f : Nat) (st : PageQueue) (ys : List (Nat × Nat)) (st' : PageQueue) (lb : Nat),
      List.Pairwise (fun a b => entryLE a b = true) st.pq →
      (∀ e ∈ st.pq, e.removed = false → fetch e.title = some e.prio) →
      (∀ e ∈ st.pq, lb ≤ e.prio) →
      pop_up_to fetch cutoff f st = some (ys, st') →
      List.Sorted (· ≤ ·) (ys.map Prod.snd) ∧ ∀ v ∈ ys.map Prod.snd, lb ≤ v := by
  intro f
  induction f with
  | zero => intro st ys st' lb _ _ _ h; cases h
  | succ f ih =>
    intro st ys st' lb hsort hagree hlb h
    obtain ⟨pq, len, fdr, ctr⟩ := st
    rcases pq with _ | ⟨e, rest⟩ <;> simp only [pop_up_to] at h
    · rw [Option.some_inj] at h
      injection h with h1 h2
      subst h1
      exact ⟨List.sorted_nil, by intro v hv; cases hv⟩
    · simp only at hsort hagree hlb
      have hsort' := (List.pairwise_cons.mp hsort).2
      have hrel := (List.pairwise_cons.mp hsort).1
      by_cases hcut : cutoff < e.prio
      · rw [if_pos hcut, Option.some_inj] at h
        injection h with h1 h2
        subst h1
        exact ⟨List.sorted_nil, by intro v hv; cases hv⟩
      · rw [if_neg hcut] at h
        by_cases hrem : e.removed = true
        · rw [if_pos hrem] at h
          exact ih ⟨rest, len, fdr, ctr⟩ ys st' lb hsort'
            (by intro x hx hl; exact hagree x (List.mem_cons_of_mem e hx) hl)
            (by intro x hx; exact hlb x (List.mem_cons_of_mem e hx)) h
        · rw [if_neg hrem] at h
          have hfe : fetch e.title = some e.prio :=
            hagree e (List.mem_cons_self e rest) (Bool.not_eq_true _ ▸ hrem)
          rw [hfe] at h
          simp only [if_neg (by omega : ¬ cutoff < e.prio)] at h
          have hpp : pop_page ⟨e :: rest, len, fdr, ctr⟩ = some ((e.title, e.prio),
              ⟨rest, len - 1, finderErase fdr e.title, ctr⟩) := by
            unfold pop_page popPageAux
            simp [hrem]
          simp only [hpp] at h
          rcases hrec : pop_up_to fetch cutoff f
              ⟨rest, len - 1, finderErase fdr e.title, ctr⟩ with
            _ | ⟨ys0, st3⟩ <;> simp only [hrec] at h
          · cases h
          · rw [Option.some_inj] at h
            injection h with h1 h2
            subst h1
            have hstep := ih ⟨rest, len - 1, finderErase fdr e.title, ctr⟩
              ys0 st3 e.prio hsort'
              (by intro x hx hl; exact hagree x (List.mem_cons_of_mem e hx) hl)
              (by
                intro x hx
                have h9 := hrel x hx
                unfold entryLE at h9
                simp only [Bool.or_eq_true, Bool.and_eq_true, decide_eq_true_eq] at h9
                omega) hrec
            constructor
            · rw [List.map_cons, List.sorted_cons]
              exact ⟨fun v hv => hstep.2 v hv, hstep.1⟩
            · intro v hv
              rcases List.mem_cons.mp hv with hv | hv
              · subst hv
                exact hlb e (List.mem_cons_self e rest)
              · exact Nat.le_trans (hlb e (List.mem_cons_self e rest)) (hstep.2 v hv)

/-- Claim C8: (1) `pop_up_to` never yields a page whose freshly
re-fetched edit time exceeds the cutoff `now - delay`, and every yielded
time is the fetched one; (2) when no page has been re-edited (the fetch
agrees with the remembered priorities), the yielded edit times come out
in nondecreasing order; (3) a live minimum whose fresh edit time exceeds
the cutoff is handled by re-inserting it through `add_page` with the new
time, and its document is never among the yields of the call. -/
theorem pop_up_to_spec (fetch : Nat → Option Nat) (cutoff : Nat) :
    (∀ (f : Nat) (st : PageQueue) (ys : List (Nat × Nat)) (st' : PageQueue),
      pop_up_to fetch cutoff f st = some (ys, st') →
      ∀ p ∈ ys, fetch p.1 = some p.2 ∧ p.2 ≤ cutoff) ∧
    (∀ (f : Nat) (st : PageQueue) (ys : List (Nat × Nat)) (st' : PageQueue),
      List.Pairwise (fun a b => entryLE a b = true) st.pq →
      (∀ e ∈ st.pq, e.removed = false → fetch e.title = some e.prio) →
      pop_up_to fetch cutoff f st = some (ys, st') →
      List.Sorted (· ≤ ·) (ys.map Prod.snd)) ∧
    (∀ (f : Nat) (st : PageQueue) (e : PQEntry) (rest : List PQEntry) (tnew : Nat),
      st.pq = e :: rest → e.removed = false → e.prio ≤ cutoff →
      fetch e.title = some tnew → cutoff < tnew →
      pop_up_to fetch cutoff (f + 1) st =
        pop_up_to fetch cutoff f (add_page st e.title tnew) ∧
      (∀ ys st', pop_up_to fetch cutoff (f + 1) st = some (ys, st') →
        e.title ∉ ys.map Prod.fst)) := by
  refine ⟨pop_up_to_yield_fetch fetch cutoff, ?_, ?_⟩
  · intro f st ys st' hsort hagree h
    exact (pop_up_to_sorted fetch cutoff f st ys st' 0 hsort hagree
      (by intro e _; exact Nat.zero_le _) h).1
  · intro f st e rest tnew hpq hrem hprio hf hnew
    constructor
    · have hoc : ¬ cutoff < e.prio := by omega
      simp [pop_up_to, hpq, hoc, hrem, hf, hnew]
    · intro ys st' h hmem
      rw [List.mem_map] at hmem
      obtain ⟨p, hp, hpt⟩ := hmem
      have := pop_up_to_yield_fetch fetch cutoff (f + 1) st ys st' h p hp
      rw [hpt, hf] at this
      have h1 : p.2 = tnew := by
        have := this.1
        exact (Option.some_inj.mp this).symm
      omega

/-- Witness for C8: three documents inserted with edit times 1 < 2 < 3
and cutoff 2; the fetch returns the remembered times; the two ready
documents are yielded in time order and the third is left queued. -/
theorem pop_up_to_spec_witness :
    (pop_up_to (fun t => some (t / 10)) 2 10
        (add_page (add_page (add_page emptyPQ 10 1) 20 2) 30 3) =
      some ([(10, 1), (20, 2)], ⟨[⟨3, 3, 30, false⟩], 1, [(30, 3)], 4⟩)) ∧
    (∀ p ∈ [((10 : Nat), (1 : Nat)), (20, 2)],
      (fun t => some (t / 10)) p.1 = some p.2 ∧ p.2 ≤ 2) ∧
    List.Sorted (· ≤ ·) ([((10 : Nat), (1 : Nat)), (20, 2)].map Prod.snd) ∧
    (pop_up_to (fun _ => some 9) 2 3 (add_page emptyPQ 10 1) =
      pop_up_to (fun _ => some 9) 2 2 (add_page (add_page emptyPQ 10 1) 10 9)) := by
  have h1 : pop_up_to (fun t => some (t / 10)) 2 10
      (add_page (add_page (add_page emptyPQ 10 1) 20 2) 30 3) =
      some ([(10, 1), (20, 2)], ⟨[⟨3, 3, 30, false⟩], 1, [(30, 3)], 4⟩) := by decide
  refine ⟨h1, ?_, ?_, ?_⟩
  · intro p hp
    exact (pop_up_to_spec (fun t => some (t / 10)) 2).1 10 _ _ _ h1 p hp
  · exact (pop_up_to_spec (fun t => some (t / 10)) 2).2.1 10 _ _ _
      (by decide) (by decide) h1
  · exact ((pop_up_to_spec (fun _ => some 9) 2).2.2 2 (add_page emptyPQ 10 1)
      ⟨1, 1, 10, false⟩ [] 9 (by decide) (by decide) (by decide) (by decide)
      (by decide)).1

/-! ### Theorems: queue coalescing (claim C9) -/

theorem heapPush_perm (e : PQEntry) :
    ∀ (pq : List PQEntry), List.Perm (heapPush e pq) (e :: pq) := by
  intro pq
  induction pq with
  | nil => exact List.Perm.refl _
  | cons x t ih =>
    rw [heapPush]
    by_cases h : entryLE e x = true
    · rw [if_pos h]
    · rw [if_neg h]
      exact List.Perm.trans (List.Perm.cons x ih) (List.Perm.swap e x t)

theorem tombstone_noop (c : Nat) :
    ∀ (pq : List PQEntry), (∀ e ∈ pq, e.count ≠ c) → tombstone c pq = pq := by
  intro pq
  induction pq with
  | nil => intro _; rfl
  | cons e rest ih =>
    intro h
    unfold tombstone
    rw [List.map_cons]
    rw [if_neg (h e (List.mem_cons_self e rest))]
    have h2 := ih (by intro x hx; exact h x (List.mem_cons_of_mem e hx))
    unfold tombstone at h2
    rw [h2]

theorem mem_tombstone (c : Nat) (pq : List PQEntry) (e : PQEntry)
    (he : e ∈ tombstone c pq) :
    ∃ e0 ∈ pq, e.count = e0.count ∧ e.title = e0.title ∧ e.prio = e0.prio ∧
      (e0.count ≠ c → e = e0) ∧ (e0.count = c → e.removed = true) := by
  unfold tombstone at he
  rw [List.mem_map] at he
  obtain ⟨e0, he0, heq⟩ := he
  by_cases hc : e0.count = c
  · rw [if_pos hc] at heq
    exact ⟨e0, he0, by rw [← heq], by rw [← heq], by rw [← heq],
      fun hne => absurd hc hne, fun _ => by rw [← heq]⟩
  · rw [if_neg hc] at heq
    subst heq
    exact ⟨e0, he0, rfl, rfl, rfl, fun _ => rfl, fun hce => absurd hce hc⟩

theorem finderLookup_insert (f : List (Nat × Nat)) (t c : Nat) :
    finderLookup (finderInsert f t c) t = some c := by
  unfold finderLookup finderInsert
  simp [List.find?]

theorem countP_tombstone_kill (c : Nat) (pq : List PQEntry)
    (hwit : ∃ e ∈ pq, e.removed = false ∧ e.count = c)
    (hnd : (pq.map PQEntry.count).Nodup) :
    pq.countP (fun e => !e.removed) =
      (tombstone c pq).countP (fun e => !e.removed) + 1 := by
  induction pq with
  | nil => obtain ⟨e, he, _⟩ := hwit; cases he
  | cons e0 rest ih =>
    rw [List.map_cons, List.nodup_cons] at hnd
    obtain ⟨e, he, hlive, hec⟩ := hwit
    unfold tombstone
    rw [List.map_cons]
    by_cases hc : e0.count = c
    · rw [if_pos hc]
      have hrest : tombstone c rest = rest := by
        apply tombstone_noop
        intro x hx hxc
        exact hnd.1 (by rw [hc, ← hxc]; exact List.mem_map_of_mem PQEntry.count hx)
      have he0 : e = e0 := by
        rcases List.mem_cons.mp he with he | he
        · exact he
        · exfalso
          exact hnd.1 (by rw [hc, ← hec]; exact List.mem_map_of_mem PQEntry.count he)
      unfold tombstone at hrest
      rw [hrest, List.countP_cons, List.countP_cons]
      rw [← he0, hlive]
      simp
    · rw [if_neg hc]
      have he' : e ∈ rest := by
        rcases List.mem_cons.mp he with he | he
        · exact absurd (he ▸ hec) hc
        · exact he
      have := ih ⟨e, he', hlive, hec⟩ hnd.2
      unfold tombstone at this
      rw [List.countP_cons, List.countP_cons, this]
      omega

/-- The common core of the double insertion: pushing `⟨t1, n, t⟩`,
tombstoning counter `n`, then pushing `⟨t2, n+1, t⟩` onto a heap `Y`
with all counters below `n` and no live entry titled `t`. -/
theorem add_twice_core (Y : List PQEntry) (n t t1 t2 : Nat)
    (hYc : ∀ e ∈ Y, e.count < n)
    (hYt : ∀ e ∈ Y, ¬(e.removed = false ∧ e.title = t)) :
    (heapPush ⟨t2, n + 1, t, false⟩
        (tombstone n (heapPush ⟨t1, n, t, false⟩ Y))).countP
        (fun e => !e.removed && decide (e.title = t)) = 1 ∧
    (∀ e ∈ heapPush ⟨t2, n + 1, t, false⟩
        (tombstone n (heapPush ⟨t1, n, t, false⟩ Y)),
      e.removed = false → e.title = t → e.prio = t2) ∧
    (liveEntries (heapPush ⟨t2, n + 1, t, false⟩
        (tombstone n (heapPush ⟨t1, n, t, false⟩ Y)))).length =
      (liveEntries Y).length + 1 := by
  have hperm1 : List.Perm (heapPush ⟨t1, n, t, false⟩ Y) (⟨t1, n, t, false⟩ :: Y) :=
    heapPush_perm _ Y
  have hperm2 : List.Perm (tombstone n (heapPush ⟨t1, n, t, false⟩ Y))
      (tombstone n (⟨t1, n, t, false⟩ :: Y)) := hperm1.map _
  have htY : tombstone n Y = Y := by
    apply tombstone_noop
    intro x hx
    exact Nat.ne_of_lt (hYc x hx)
  have hts : tombstone n (⟨t1, n, t, false⟩ :: Y) =
      ⟨t1, n, t, true⟩ :: Y := by
    unfold tombstone
    rw [List.map_cons, if_pos rfl]
    unfold tombstone at htY
    rw [htY]
  rw [hts] at hperm2
  have hperm3 : List.Perm (heapPush ⟨t2, n + 1, t, false⟩
      (tombstone n (heapPush ⟨t1, n, t, false⟩ Y)))
      (⟨t2, n + 1, t, false⟩ :: ⟨t1, n, t, true⟩ :: Y) :=
    List.Perm.trans (heapPush_perm _ _) (hperm2.cons _)
  refine ⟨?_, ?_, ?_⟩
  · rw [hperm3.countP_eq]
    rw [List.countP_cons, List.countP_cons]
    have hzero : Y.countP (fun e => !e.removed && decide (e.title = t)) = 0 := by
      rw [List.countP_eq_zero]
      intro e he
      have := hYt e he
      simp only [Bool.and_eq_true, Bool.not_eq_true', decide_eq_true_eq]
      intro hcon
      exact this ⟨hcon.1, hcon.2⟩
    rw [hzero]
    simp
  · intro e he hrem ht
    rcases List.mem_cons.mp (hperm3.mem_iff.mp he) with h1 | h1
    · rw [h1]
    · rcases List.mem_cons.mp h1 with h1 | h1
      · rw [h1] at hrem; simp at hrem
      · exact absurd ⟨hrem, ht⟩ (hYt e h1)
  · unfold liveEntries
    rw [← List.countP_eq_length_filter, ← List.countP_eq_length_filter]
    rw [hperm3.countP_eq]
    rw [List.countP_cons, List.countP_cons]
    simp

/-- Claim C9: inserting the same title twice through `add_page`, with
edit times `t1` then `t2 > t1`, leaves exactly one live queue entry for
that title, carrying priority `t2`, and the reported length counts the
live entries (so it counts this title exactly once). -/
theorem add_page_coalesces (st : PageQueue) (t t1 t2 : Nat)
    (hinv : PQInv st) (hlt : t1 < t2) :
    (add_page (add_page st t t1) t t2).pq.countP
        (fun e => !e.removed && decide (e.title = t)) = 1 ∧
    (∀ e ∈ (add_page (add_page st t t1) t t2).pq,
      e.removed = false → e.title = t → e.prio = t2) ∧
    (add_page (add_page st t t1) t t2).len =
      (liveEntries (add_page (add_page st t t1) t t2).pq).length := by
  obtain ⟨hF, hF2, hB, hC, hL⟩ := hinv
  -- the first insertion, by cases on whether the title was present
  have hmain : ∃ Y lenA, (add_page st t t1) =
      ⟨heapPush ⟨t1, st.counter, t, false⟩ Y, lenA + 1,
        finderInsert (finderErase st.finder t) t st.counter, st.counter + 1⟩ ∧
      (∀ e ∈ Y, e.count < st.counter) ∧
      (∀ e ∈ Y, ¬(e.removed = false ∧ e.title = t)) ∧
      lenA = (liveEntries Y).length := by
    rcases hc : finderLookup st.finder t with _ | c
    · refine ⟨st.pq, st.len, ?_, hB, ?_, ?_⟩
      · unfold add_page
        rw [hc]
        simp only [Option.isSome_none, Bool.false_eq_true, if_false]
        have : finderErase st.finder t = st.finder := by
          unfold finderErase
          apply List.filter_eq_self.mpr
          intro q hq
          simp only [Bool.not_eq_eq_eq_not, Bool.not_true, decide_eq_false_iff_not]
          intro hqt
          have : finderLookup st.finder t ≠ none := by
            unfold finderLookup
            have : st.finder.find? (fun q' => decide (q'.1 = t)) ≠ none := by
              rw [Ne, List.find?_eq_none]
              push_neg
              exact ⟨q, hq, by simpa using hqt⟩
            intro hcon
            rw [Option.map_eq_none'] at hcon
            exact this hcon
          exact this hc
        rw [this]
      · intro e he hcon
        have := hF2 e he hcon.1
        rw [hcon.2] at this
        rw [this] at hc
        cases hc
      · unfold liveEntries
        exact hL
    · refine ⟨tombstone c st.pq, st.len - 1, ?_, ?_, ?_, ?_⟩
      · unfold add_page remove_page
        rw [hc]
        simp
      · intro e he
        obtain ⟨e0, he0, hcount, _, _, _, _⟩ := mem_tombstone c st.pq e he
        rw [hcount]
        exact hB e0 he0
      · intro e he hcon
        obtain ⟨e0, he0, hcount, htitle, _, hne, hye⟩ := mem_tombstone c st.pq e he
        by_cases hec : e0.count = c
        · rw [hye hec] at hcon
          cases hcon.1
        · rw [hne hec] at hcon
          have := hF2 e0 he0 hcon.1
          rw [hcon.2] at this
          rw [this] at hc
          exact hec (Option.some_inj.mp hc)
      · obtain ⟨e, he, hlive, htitle, hcount⟩ := hF t c hc
        have := countP_tombstone_kill c st.pq ⟨e, he, hlive, hcount⟩ hC
        unfold liveEntries
        rw [← List.countP_eq_length_filter]
        unfold liveEntries at hL
        rw [← List.countP_eq_length_filter] at hL
        omega
  obtain ⟨Y, lenA, hA, hYc, hYt, hlenA⟩ := hmain
  -- the second insertion necessarily finds the fresh entry
  have hlook2 : finderLookup (finderInsert (finderErase st.finder t) t st.counter) t
      = some st.counter := finderLookup_insert _ t st.counter
  have hA2 : add_page (add_page st t t1) t t2 =
      ⟨heapPush ⟨t2, st.counter + 1, t, false⟩
          (tombstone st.counter (heapPush ⟨t1, st.counter, t, false⟩ Y)),
        ((lenA + 1) - 1) + 1,
        finderInsert (finderErase
          (finderInsert (finderErase st.finder t) t st.counter) t) t (st.counter + 1),
        st.counter + 2⟩ := by
    rw [hA]
    unfold add_page remove_page
    simp only [hlook2, Option.isSome_some, if_true]
  have hcore := add_twice_core Y st.counter t t1 t2 hYc hYt
  rw [hA2]
  dsimp only
  refine ⟨hcore.1, hcore.2.1, ?_⟩
  rw [hcore.2.2]
  omega

/-- Witness for C9: inserting title 7 at times 1 then 5 into the empty
queue leaves exactly one live entry for title 7, with priority 5, and
the reported length equals the live-entry count. -/
theorem add_page_coalesces_witness :
    PQInv emptyPQ ∧ (1 : Nat) < 5 ∧
    ((add_page (add_page emptyPQ 7 1) 7 5).pq.countP
        (fun e => !e.removed && decide (e.title = 7)) = 1 ∧
      (∀ e ∈ (add_page (add_page emptyPQ 7 1) 7 5).pq,
        e.removed = false → e.title = 7 → e.prio = 5) ∧
      (add_page (add_page emptyPQ 7 1) 7 5).len =
        (liveEntries (add_page (add_page emptyPQ 7 1) 7 5).pq).length) := by
  have hinv : PQInv emptyPQ := by
    refine ⟨?_, ?_, ?_, ?_, ?_⟩
    · intro t c h
      simp [finderLookup, emptyPQ, List.find?] at h
    · intro e he
      simp [emptyPQ] at he
    · intro e he
      simp [emptyPQ] at he
    · exact List.nodup_nil
    · rfl
  exact ⟨hinv, by decide, add_page_coalesces emptyPQ 7 1 5 hinv (by decide)⟩

end IndentBot

namespace IndentBot

/-! ### Theorems: abort safety valve (claim C3) -/

/-- Claim C3: whenever `abort_style_fix` recognizes an ambiguous
wikilink shape, `StyleFix.__call__` returns the original text
byte-for-byte with score 0, for any parameters and any oracles. -/
theorem style_fix_abort_safety (P : StyleParams) (amb breakNl : Line → Bool)
    (text : List Char)
    (h : abort_style_fix amb (line_partition text) = true) :
    styleFixCall P amb breakNl text = (text, 0) := by
  unfold styleFixCall
  simp [h]

/-- Witness for C3: a document with two adjacent indented lines, the
first flagged by the wikilink oracle, is returned unchanged. -/
theorem style_fix_abort_safety_witness :
    abort_style_fix (fun _ => true) (line_partition (":a\n:b\n".toList)) = true ∧
    styleFixCall defaultStyleParams (fun _ => true) (fun _ => false)
      (":a\n:b\n".toList) = (":a\n:b\n".toList, 0) := by
  refine ⟨by decide, ?_⟩
  exact style_fix_abort_safety defaultStyleParams (fun _ => true) (fun _ => false)
    (":a\n:b\n".toList) (by decide)

/-! ### Theorems: style pass final character (claim C4) -/

theorem getLast?_append_drop (A : Line) (l : Line) (n : Nat) (h : n < l.length) :
    (A ++ l.drop n).getLast? = l.getLast? := by
  have hd : l.drop n ≠ [] := by
    intro hnil
    have := congrArg List.length hnil
    simp [List.length_drop] at this
    omega
  rw [List.getLast?_append_of_ne_nil A hd]
  conv_rhs => rw [← List.take_append_drop n l]
  rw [List.getLast?_append_of_ne_nil _ hd]

/-- Claim C4 as stated is false: on `":a\n"` then `"*b\n"`, the second
line's level (1) does not exceed the remembered level (1), yet
`TextFixer._fix_styles` rewrites `"*b\n"` to `":b\n"`, changing the
final marker character. -/
theorem stylePassFinalCharClaim_false : ¬ stylePassFinalCharClaim := by
  intro h
  have h2 := (h [":a\n".toList, "*b\n".toList] 1 (by decide) (by decide)).1 (by decide)
  revert h2
  decide

/-- Amended claim C4: (1) in `StyleFix._match_indent` (fixes.py) the
final character of a nonempty indent is always preserved, for any
parameters; (2) in `TextFixer._fix_styles`, the majority vote of
`bulleted_or_unbulleted` resolves ties to the run's first line's own
final indent character, not to `*`; and (3) when the level does not
increase, `_fix_styles` may overwrite the final character with the
remembered style, as on `":a\n"`, `"*b\n"` (which becomes `":b\n"`,
with one marker change and one final-character change). -/
theorem style_final_char_amended :
    (∀ (P : StyleParams) (prev ind : Line), ind ≠ [] →
      (match_indent P prev ind).getLast? = ind.getLast?) ∧
    (∀ (lines : List Line) (level : Nat),
      (votes level lines 0 0).1 = (votes level lines 0 0).2 →
      bulleted_or_unbulleted lines level =
        (indent_text (lines.headD [])).getLastD ' ') ∧
    tf_fix_styles [":a\n".toList, "*b\n".toList] =
      ([":a\n".toList, ":b\n".toList], 1, 1) := by
  refine ⟨?_, ?_, by decide⟩
  · intro P prev ind h
    unfold match_indent
    apply getLast?_append_drop
    have : 1 ≤ ind.length := List.length_pos.mpr h
    omega
  · intro lines level h
    unfold bulleted_or_unbulleted
    simp [h]

/-- Witness for the amended C4: the final character of `":*"` survives
`_match_indent` against `":"`; the tie on `":a\n", "*b\n"` at level 1
resolves to `:` (the first line's authored character). -/
theorem style_final_char_amended_witness :
    (match_indent defaultStyleParams [':'] [':', '*']).getLast? =
      ([':', '*'] : Line).getLast? ∧
    bulleted_or_unbulleted [":a\n".toList, "*b\n".toList] 1 =
      (indent_text (([":a\n".toList, "*b\n".toList] : List Line).headD [])).getLastD ' ' := by
  constructor
  · exact style_final_char_amended.1 defaultStyleParams [':'] [':', '*'] (by decide)
  · exact style_final_char_amended.2.1 [":a\n".toList, "*b\n".toList] 1 (by decide)

/-! ### Theorems: the numbering checks that do hold (amended claim C2) -/

/-- Amended claim C2: the blank-gap closing stage only removes a gap
when the closing line's post-common-prefix `#`-count is unchanged
(`_removable_gap`'s numbering guard), and `CombinedFix._abort_fix`
returning false guarantees that restyling any adjacent pair against its
old predecessor preserves the count; the absorption stage carries no
such guard, and the universal per-pass invariance fails (see the
counterexample). -/
theorem numbering_checks_amended :
    (∀ (p : GapParams) (o c : Line) (g : Nat),
      removable_gap p o c g = true → one_count [] c = one_count o c) ∧
    (∀ (P : StyleParams) (amb : Line → Bool) (lines : List Line),
      combinedAbortFix P amb lines = false →
      ∀ x y, AdjPair lines x y →
        one_count (indent_text x) (indent_text y) =
          one_count (indent_text x) (match_indent P (indent_text x) (indent_text y))) := by
  constructor
  · intro p o c g h
    unfold removable_gap at h
    split_ifs at h with h1 h2 h3 h4 h5 h6
    exact not_ne_iff.mp h4
  · intro P amb lines h x y hadj
    unfold combinedAbortFix at h
    rw [Bool.or_eq_false_iff] at h
    have h2 := h.2
    rw [List.any_eq_false] at h2
    have h3 := h2 (x, y) hadj
    simpa using h3

/-- Witness for the amended C2: a concrete removable gap preserving the
closing count, and a concrete non-aborting pair preserved by
`_match_indent`. -/
theorem numbering_checks_amended_witness :
    one_count [] ['*', ':'] = one_count [':'] ['*', ':'] ∧
    one_count (indent_text (":a\n".toList)) (indent_text (":b\n".toList)) =
      one_count (indent_text (":a\n".toList))
        (match_indent defaultStyleParams (indent_text (":a\n".toList))
          (indent_text (":b\n".toList))) := by
  constructor
  · exact numbering_checks_amended.1 defaultGapParams [':'] ['*', ':'] 1 (by decide)
  · exact numbering_checks_amended.2 defaultStyleParams (fun _ => false)
      [":a\n".toList, ":b\n".toList] (by decide) _ _ (by decide)

/-! ### Theorems: extra-indent collapse (claim C5) -/

theorem takeWhile_append_of_all (p : Char → Bool) (P t : List Char)
    (h : P.all p = true) : (P ++ t).takeWhile p = P ++ t.takeWhile p := by
  induction P with
  | nil => simp
  | cons c rest ih =>
    simp only [List.all_cons, Bool.and_eq_true] at h
    simp [List.takeWhile, h.1, ih h.2]

theorem takeWhile_dropWhile_eq_nil (p : Char → Bool) (l : List Char) :
    (l.dropWhile p).takeWhile p = [] := by
  induction l with
  | nil => rfl
  | cons c rest ih =>
    by_cases h : p c = true
    · simpa [List.dropWhile, h] using ih
    · simp [List.dropWhile, h, List.takeWhile]

/-- Cutting characters strictly inside the marker run commutes with
taking the marker run. -/
theorem indent_text_cut (x y : Nat) (m : Line) (hx : x < y)
    (hy : y ≤ indent_lvl m) :
    indent_text (cut x y m) = cut x y (indent_text m) := by
  have hlen : (indent_text m).length = indent_lvl m := rfl
  have hm : indent_text m ++ m.dropWhile isIndentChar = m :=
    List.takeWhile_append_dropWhile isIndentChar m
  have htk : m.take x = (indent_text m).take x := by
    conv_lhs => rw [← hm]
    exact List.take_append_of_le_length (by omega)
  have hdr : m.drop (y - 1) = (indent_text m).drop (y - 1) ++ m.dropWhile isIndentChar := by
    conv_lhs => rw [← hm]
    exact List.drop_append_of_le_length (by omega)
  have hall : ((indent_text m).take x ++ (indent_text m).drop (y - 1)).all isIndentChar = true := by
    rw [List.all_append]
    have h1 := List.all_takeWhile (p := isIndentChar) (l := m)
    have h2 : ((indent_text m).take x).all isIndentChar = true := by
      rw [List.all_eq_true] at h1 ⊢
      intro c hc
      exact h1 c (List.mem_of_mem_take hc)
    have h3 : ((indent_text m).drop (y - 1)).all isIndentChar = true := by
      rw [List.all_eq_true] at h1 ⊢
      intro c hc
      exact h1 c (List.mem_of_mem_drop hc)
    rw [h2, h3]
    rfl
  have step1 : cut x y m =
      ((indent_text m).take x ++ (indent_text m).drop (y - 1)) ++
        m.dropWhile isIndentChar := by
    unfold cut
    rw [htk, hdr, List.append_assoc]
  have step2 : indent_text (cut x y m) =
      (((indent_text m).take x ++ (indent_text m).drop (y - 1)) ++
        m.dropWhile isIndentChar).takeWhile isIndentChar := by
    rw [← step1]; rfl
  rw [step2, takeWhile_append_of_all _ _ _ hall, takeWhile_dropWhile_eq_nil,
    List.append_nil]
  rfl

/-- The run loop of `fix_extra_indents` cuts exactly the contiguous
prefix of lines whose level stays at or above `y` and leaves the rest
untouched. -/
theorem cutRest_eq (x y : Nat) (rest : List Line) :
    (cutRest x y rest).1 =
      (rest.takeWhile (fun m => decide (y ≤ indent_lvl m))).map (cut x y) ++
        rest.dropWhile (fun m => decide (y ≤ indent_lvl m)) := by
  induction rest with
  | nil => rfl
  | cons l t ih =>
    by_cases h : indent_lvl l < y
    · have hb : (decide (y ≤ indent_lvl l)) = false := by simpa using h
      simp [cutRest, h, List.takeWhile, List.dropWhile, hb]
    · have hb : (decide (y ≤ indent_lvl l)) = true := by simpa using Nat.le_of_not_lt h
      simp [cutRest, h, List.takeWhile, List.dropWhile, hb, ih]

/-- Claim C5: when an adjacent pair jumps by more than one level and
more than one visual level, the pass cuts, out of every line of the
contiguous run at or above the deeper level, exactly the marker
characters between the old level and the new level minus one — never the
final marker character — stopping the run at the first line whose level
drops below the deeper level; when the jump's visual increase is at most
one, the pair is left unchanged at this step. -/
theorem fix_extra_indents_spec (prev l : Line) (rest : List Line) (f : Nat) :
    (indent_lvl prev + 1 < indent_lvl l →
     visual_lvl prev + 1 < visual_lvl l →
      (extraGoF (f + 1) prev (l :: rest) =
        (cut (indent_lvl prev) (indent_lvl l) l ::
          (extraGoF f (cut (indent_lvl prev) (indent_lvl l) l)
            (cutRest (indent_lvl prev) (indent_lvl l) rest).1).1,
         (extraGoF f (cut (indent_lvl prev) (indent_lvl l) l)
            (cutRest (indent_lvl prev) (indent_lvl l) rest).1).2 +
           ((cutRest (indent_lvl prev) (indent_lvl l) rest).2 + 1) *
             (indent_lvl l - indent_lvl prev - 1)) ∧
       (cutRest (indent_lvl prev) (indent_lvl l) rest).1 =
         (rest.takeWhile (fun m => decide (indent_lvl l ≤ indent_lvl m))).map
             (cut (indent_lvl prev) (indent_lvl l)) ++
           rest.dropWhile (fun m => decide (indent_lvl l ≤ indent_lvl m)) ∧
       (∀ m : Line, indent_lvl l ≤ indent_lvl m →
         cut (indent_lvl prev) (indent_lvl l) m =
           m.take (indent_lvl prev) ++ m.drop (indent_lvl l - 1) ∧
         (indent_text (cut (indent_lvl prev) (indent_lvl l) m)).getLast? =
           (indent_text m).getLast?))) ∧
    (indent_lvl prev + 1 < indent_lvl l →
     visual_lvl l ≤ visual_lvl prev + 1 →
      extraGoF (f + 1) prev (l :: rest) =
        (l :: (extraGoF f l rest).1, (extraGoF f l rest).2)) := by
  constructor
  · intro h1 h2
    refine ⟨?_, cutRest_eq _ _ _, ?_⟩
    · simp only [extraGoF]
      rw [if_pos ⟨h1, h2⟩]
    · intro m hm
      refine ⟨rfl, ?_⟩
      rw [indent_text_cut _ _ _ (by omega) hm]
      unfold cut
      apply getLast?_append_drop
      have : indent_lvl l ≤ (indent_text m).length := hm
      omega
  · intro h1 h2
    simp only [extraGoF]
    rw [if_neg (by omega)]

/-- Witness for C5: a triggered collapse (`":"` to `":::a"`, with the
run `":::b"` cut and `":c"` stopping it) and an exempt visual jump
(`"#a"` to `":::b"`). -/
theorem fix_extra_indents_spec_witness :
    (extraGoF 3 (":".toList) (":::a\n".toList :: [":::b\n".toList, ":c\n".toList]) =
      (cut 1 3 (":::a\n".toList) ::
        (extraGoF 2 (cut 1 3 (":::a\n".toList))
          (cutRest 1 3 [":::b\n".toList, ":c\n".toList]).1).1,
       (extraGoF 2 (cut 1 3 (":::a\n".toList))
          (cutRest 1 3 [":::b\n".toList, ":c\n".toList]).1).2 +
         ((cutRest 1 3 [":::b\n".toList, ":c\n".toList]).2 + 1) * 1) ∧
     (cutRest 1 3 [":::b\n".toList, ":c\n".toList]).1 =
       ([":::b\n".toList, ":c\n".toList].takeWhile
           (fun m => decide (3 ≤ indent_lvl m))).map (cut 1 3) ++
         [":::b\n".toList, ":c\n".toList].dropWhile
           (fun m => decide (3 ≤ indent_lvl m))) ∧
    extraGoF 2 ("#a\n".toList) [":::b\n".toList] =
      (":::b\n".toList :: (extraGoF 1 (":::b\n".toList) []).1,
        (extraGoF 1 (":::b\n".toList) []).2) := by
  refine ⟨?_, ?_⟩
  · have h := (fix_extra_indents_spec (":".toList) (":::a\n".toList)
      [":::b\n".toList, ":c\n".toList] 2).1 (by decide) (by decide)
    exact ⟨h.1, h.2.1⟩
  · exact (fix_extra_indents_spec ("#a\n".toList) (":::b\n".toList) [] 1).2
      (by decide) (by decide)

/-- Witness for C10 at a concrete input: `":a\nb"` splits into
`[":a\n", "b"]` and concatenates back. -/
theorem line_partition_roundtrip_witness :
    (line_partition_by (fun _ => false) (":a\nb".toList)).flatten = ":a\nb".toList ∧
    ((":a\n".toList ≠ []) ∧ (":a\n".toList.getLast? = some '\n')) ∧
    (line_partition_by (fun _ => false) (":a\n".toList)).getLast? = some [] := by
  refine ⟨(line_partition_roundtrip (fun _ => false) (":a\nb".toList)).1, ⟨by decide, by decide⟩, ?_⟩
  exact (line_partition_roundtrip (fun _ => false) (":a\n".toList)).2.2
    (by decide) (by decide) (by decide)

end IndentBot

namespace IndentBot

/-! ### Theorems: idempotence of the fixer (claim C1)

The development: well-formedness of partitioned lines and its
preservation by each pass, the partition-of-concatenation analysis, the
character-count measures of the passes, and the fixed-point argument for
the driver `fix_text`. -/

theorem wfLines_cons (l : Line) (rest : List Line) :
    wfLines (l :: rest) ↔
      (noNl l.dropLast = true ∧ (rest ≠ [] → l.getLast? = some '\n') ∧
        wfLines rest) := by
  cases rest with
  | nil => simp [wfLines]
  | cons m t =>
    show (l.getLast? = some '\n' ∧ noNl l.dropLast = true) ∧ wfLines (m :: t) ↔ _
    constructor
    · rintro ⟨⟨h1, h2⟩, h3⟩
      exact ⟨h2, fun _ => h1, h3⟩
    · rintro ⟨h1, h2, h3⟩
      exact ⟨⟨h2 (by simp), h1⟩, h3⟩

theorem wfLines_tail (l : Line) (rest : List Line) (h : wfLines (l :: rest)) :
    wfLines rest := ((wfLines_cons l rest).mp h).2.2

theorem partitionGo_false_irrel (text : List Char) :
    ∀ (i j : Nat) (cur : List Char),
      partitionGo (fun _ => false) i cur text =
        partitionGo (fun _ => false) j cur text := by
  induction text with
  | nil => intro i j cur; rfl
  | cons c rest ih =>
    intro i j cur
    simp only [partitionGo]
    by_cases h : c = '\n'
    · rw [if_pos (by simp [h]), if_pos (by simp [h]), ih (i + 1) (j + 1)]
    · rw [if_neg (by simp [h]), if_neg (by simp [h]), ih (i + 1) (j + 1)]

theorem noNl_cons (c : Char) (b : List Char) :
    noNl (c :: b) = true ↔ (c ≠ '\n' ∧ noNl b = true) := by
  simp [noNl]

theorem partitionGo_nl (b : List Char) (hb : noNl b = true) :
    ∀ (i : Nat) (cur rest : List Char),
      partitionGo (fun _ => false) i cur (b ++ '\n' :: rest) =
        ((cur.reverse ++ b) ++ ['\n']) ::
          partitionGo (fun _ => false) 0 [] rest := by
  induction b with
  | nil =>
    intro i cur rest
    rw [List.nil_append]
    simp only [partitionGo]
    rw [if_pos (by simp)]
    rw [partitionGo_false_irrel rest (i + 1) 0]
    simp
  | cons c b' ih =>
    intro i cur rest
    obtain ⟨hc, hb'⟩ := (noNl_cons c b').mp hb
    rw [List.cons_append]
    simp only [partitionGo]
    rw [if_neg (by simp [hc])]
    rw [ih hb' (i + 1) (c :: cur) rest]
    simp

theorem line_partition_append_nl (b rest : List Char) (hb : noNl b = true) :
    line_partition ((b ++ ['\n']) ++ rest) =
      (b ++ ['\n']) :: line_partition rest := by
  show partitionGo (fun _ => false) 0 [] ((b ++ ['\n']) ++ rest) = _
  rw [List.append_assoc]
  show partitionGo (fun _ => false) 0 [] (b ++ '\n' :: rest) = _
  rw [partitionGo_nl b hb 0 [] rest]
  rfl

theorem partitionGo_noNl (l : List Char) (h : noNl l = true) :
    ∀ (i : Nat) (cur : List Char),
      partitionGo (fun _ => false) i cur l = [cur.reverse ++ l] := by
  induction l with
  | nil => intro i cur; simp [partitionGo]
  | cons c l' ih =>
    intro i cur
    obtain ⟨hc, hl'⟩ := (noNl_cons c l').mp h
    simp only [partitionGo]
    rw [if_neg (by simp [hc])]
    rw [ih hl' (i + 1) (c :: cur)]
    simp

theorem line_partition_noNl (l : List Char) (h : noNl l = true) :
    line_partition l = [l] := by
  show partitionGo (fun _ => false) 0 [] l = [l]
  rw [partitionGo_noNl l h 0 []]
  rfl

theorem wfLines_partitionGo (text : List Char) :
    ∀ (i : Nat) (cur : List Char), noNl cur = true →
      wfLines (partitionGo (fun _ => false) i cur text) := by
  induction text with
  | nil =>
    intro i cur hcur
    show wfLines [cur.reverse]
    show noNl cur.reverse.dropLast = true
    rw [noNl, List.all_eq_true]
    intro c hc
    have hc2 : c ∈ cur.reverse := List.dropLast_sublist _ |>.mem hc
    rw [List.mem_reverse] at hc2
    exact (List.all_eq_true.mp hcur) c hc2
  | cons c rest ih =>
    intro i cur hcur
    simp only [partitionGo]
    by_cases h : c = '\n'
    · rw [if_pos (by simp [h]), h]
      rw [wfLines_cons]
      have hrev : noNl cur.reverse = true := by
        rw [noNl, List.all_eq_true]
        intro x hx
        rw [List.mem_reverse] at hx
        exact (List.all_eq_true.mp hcur) x hx
      refine ⟨?_, fun _ => List.getLast?_concat _, ih (i + 1) [] rfl⟩
      rw [List.dropLast_concat]
      exact hrev
    · rw [if_neg (by simp [h])]
      exact ih (i + 1) (c :: cur) ((noNl_cons c cur).mpr ⟨h, hcur⟩)

theorem wfLines_partition (t : List Char) : wfLines (line_partition t) :=
  wfLines_partitionGo t 0 [] rfl

theorem eq_dropLast_concat_of_getLast (l : Line) (c : Char)
    (h : l.getLast? = some c) : l = l.dropLast ++ [c] := by
  cases l with
  | nil => simp at h
  | cons a t =>
    have hne : (a :: t) ≠ [] := by simp
    rw [List.getLast?_eq_getLast _ hne] at h
    injection h with h1
    rw [← h1]
    exact (List.dropLast_append_getLast hne).symm

theorem noNl_of_dropLast (l : Line) (h1 : noNl l.dropLast = true)
    (h2 : l.getLast? ≠ some '\n') : noNl l = true := by
  cases hl : l.getLast? with
  | none =>
    have : l = [] := List.getLast?_eq_none_iff.mp hl
    rw [this]; rfl
  | some c =>
    have hd := eq_dropLast_concat_of_getLast l c hl
    rw [hd, noNl, List.all_append]
    have hc : c ≠ '\n' := by
      intro hcon
      exact h2 (by rw [hl, hcon])
    simp only [Bool.and_eq_true]
    exact ⟨h1, by simp [hc]⟩

/-- Splitting the concatenation of a well-formed line list recovers the
list, except that a trailing newline produces one extra empty line. -/
theorem partition_flatten (L : List Line) (h : wfLines L) :
    line_partition L.flatten =
      if (L.getLastD []).getLast? = some '\n' then L ++ [[]]
      else if L = [] then [[]] else L := by
  induction L with
  | nil =>
    rw [if_neg (by simp), if_pos rfl]
    rfl
  | cons l rest ih =>
    cases rest with
    | nil =>
      have hwf : noNl l.dropLast = true := h
      simp only [List.flatten_cons, List.flatten_nil, List.append_nil]
      have hgd : ([l].getLastD []) = l := by simp [List.getLastD_cons]
      by_cases hl : l.getLast? = some '\n'
      · have hdec := eq_dropLast_concat_of_getLast l '\n' hl
        rw [if_pos (by rw [hgd]; exact hl)]
        have hstep := line_partition_append_nl l.dropLast [] hwf
        rw [List.append_nil] at hstep
        conv_lhs => rw [hdec]
        rw [hstep, ← hdec]
        rfl
      · rw [if_neg (by rw [hgd]; exact hl), if_neg (by simp)]
        exact line_partition_noNl l (noNl_of_dropLast l hwf hl)
    | cons m t =>
      rw [wfLines_cons] at h
      obtain ⟨h1, h2, h3⟩ := h
      have hnl := h2 (by simp)
      have hdec := eq_dropLast_concat_of_getLast l '\n' hnl
      have ihh := ih h3
      rw [List.flatten_cons]
      conv_lhs => rw [hdec]
      rw [line_partition_append_nl l.dropLast _ h1, ihh, ← hdec]
      have hgl : ((l :: m :: t).getLastD []) = ((m :: t).getLastD []) := by
        simp [List.getLastD_cons]
      by_cases hc : ((m :: t).getLastD []).getLast? = some '\n'
      · rw [if_pos hc, if_pos (by rw [hgl]; exact hc)]
        rfl
      · rw [if_neg hc]
        rw [if_neg (show ¬((l :: m :: t).getLastD []).getLast? = some '\n' by
          rw [hgl]; exact hc)]
        rw [if_neg (show ¬(m :: t) = [] by simp)]
        rw [if_neg (show ¬(l :: m :: t) = [] by simp)]

end IndentBot

namespace IndentBot

/-! #### The gap pass: sublist structure and score accounting -/

theorem gapsIGo_sublist :
    ∀ (tail : List Line) (st : Option (Line × List Line)),
      (gapsIGo st tail).1.Sublist (stLines st ++ tail) := by
  intro tail
  induction tail with
  | nil =>
    intro st
    cases st with
    | none => exact List.Sublist.refl _
    | some p =>
      obtain ⟨l, g⟩ := p
      simp only [gapsIGo, stLines, List.append_nil]
      exact List.Sublist.refl _
  | cons m tail ih =>
    intro st
    cases st with
    | none =>
      simp only [gapsIGo]
      by_cases h : indent_lvl m = 0
      · rw [if_pos h]
        exact (ih none).cons₂ m
      · rw [if_neg h]
        simpa [stLines] using ih (some (m, []))
    | some p =>
      obtain ⟨l, g⟩ := p
      simp only [gapsIGo]
      by_cases hb : is_blank_line m = true
      · rw [if_pos hb]
        have h2 := ih (some (l, m :: g))
        simp only [stLines, List.reverse_cons, List.append_assoc,
          List.cons_append, List.singleton_append] at h2 ⊢
        exact h2
      · rw [if_neg hb]
        have hr : (if indent_lvl m = 0 then
              (m :: (gapsIGo none tail).1, (gapsIGo none tail).2)
            else gapsIGo (some (m, [])) tail).1.Sublist (m :: tail) := by
          by_cases h : indent_lvl m = 0
          · rw [if_pos h]
            exact (ih none).cons₂ m
          · rw [if_neg h]
            simpa [stLines] using ih (some (m, []))
        by_cases hc : 1 ≤ indent_lvl m ∧ (g.length = 1 ∨ 1 < indent_lvl m)
        · rw [if_pos hc]
          show (l :: _).Sublist ((l :: g.reverse) ++ m :: tail)
          rw [List.cons_append]
          exact (hr.trans (List.sublist_append_right g.reverse (m :: tail))).cons₂ l
        · rw [if_neg hc]
          show (l :: (g.reverse ++ _)).Sublist ((l :: g.reverse) ++ m :: tail)
          rw [List.cons_append]
          exact (hr.append_left g.reverse).cons₂ l

theorem gapsIGo_len :
    ∀ (tail : List Line) (st : Option (Line × List Line)),
      (gapsIGo st tail).1.length + (gapsIGo st tail).2 =
        (stLines st ++ tail).length := by
  intro tail
  induction tail with
  | nil =>
    intro st
    cases st with
    | none => rfl
    | some p =>
      obtain ⟨l, g⟩ := p
      simp [gapsIGo, stLines]
  | cons m tail ih =>
    intro st
    cases st with
    | none =>
      simp only [gapsIGo]
      by_cases h : indent_lvl m = 0
      · rw [if_pos h]
        have h0 := ih none
        simp [stLines] at h0 ⊢
        omega
      · rw [if_neg h]
        have h0 := ih (some (m, []))
        simp [stLines] at h0 ⊢
        omega
    | some p =>
      obtain ⟨l, g⟩ := p
      simp only [gapsIGo]
      by_cases hb : is_blank_line m = true
      · rw [if_pos hb]
        have h0 := ih (some (l, m :: g))
        simp [stLines] at h0 ⊢
        omega
      · rw [if_neg hb]
        have hr : (if indent_lvl m = 0 then
              (m :: (gapsIGo none tail).1, (gapsIGo none tail).2)
            else gapsIGo (some (m, [])) tail).1.length +
            (if indent_lvl m = 0 then
              (m :: (gapsIGo none tail).1, (gapsIGo none tail).2)
            else gapsIGo (some (m, [])) tail).2 = (m :: tail).length := by
          by_cases h : indent_lvl m = 0
          · rw [if_pos h]
            have h0 := ih none
            simp [stLines] at h0 ⊢
            omega
          · rw [if_neg h]
            have h0 := ih (some (m, []))
            simp [stLines] at h0 ⊢
            omega
        by_cases hc : 1 ≤ indent_lvl m ∧ (g.length = 1 ∨ 1 < indent_lvl m)
        · rw [if_pos hc]
          simp [stLines] at hr ⊢
          omega
        · rw [if_neg hc]
          simp [stLines] at hr ⊢
          omega

theorem gapsIGo_append_empty :
    ∀ (tail : List Line) (st : Option (Line × List Line)),
      gapsIGo st (tail ++ [[]]) =
        ((gapsIGo st tail).1 ++ [[]], (gapsIGo st tail).2) := by
  intro tail
  induction tail with
  | nil =>
    intro st
    cases st with
    | none => rfl
    | some p =>
      obtain ⟨l, g⟩ := p
      rfl
  | cons m tail ih =>
    intro st
    cases st with
    | none =>
      rw [List.cons_append]
      simp only [gapsIGo]
      by_cases h : indent_lvl m = 0
      · rw [if_pos h, if_pos h, ih none]
        simp
      · rw [if_neg h, if_neg h, ih (some (m, []))]
    | some p =>
      obtain ⟨l, g⟩ := p
      rw [List.cons_append]
      simp only [gapsIGo]
      by_cases hb : is_blank_line m = true
      · rw [if_pos hb, if_pos hb, ih (some (l, m :: g))]
      · rw [if_neg hb, if_neg hb]
        by_cases h : indent_lvl m = 0
        · rw [if_pos h, if_pos h, ih none]
          by_cases hc : 1 ≤ indent_lvl m ∧ (g.length = 1 ∨ 1 < indent_lvl m)
          · rw [if_pos hc, if_pos hc]
            simp
          · rw [if_neg hc, if_neg hc]
            simp
        · rw [if_neg h, if_neg h, ih (some (m, []))]
          by_cases hc : 1 ≤ indent_lvl m ∧ (g.length = 1 ∨ 1 < indent_lvl m)
          · rw [if_pos hc, if_pos hc]
            simp
          · rw [if_neg hc, if_neg hc]
            simp

theorem fix_gaps_sublist (L : List Line) : (fix_gaps L).1.Sublist L := by
  have h1 : (gapsIGo none L).1.Sublist L := by
    simpa [stLines] using gapsIGo_sublist L none
  exact (List.filter_sublist _).trans h1

theorem fix_gaps_eq_self (L : List Line) (h : (fix_gaps L).1 = L) :
    fix_gaps L = (L, 0) := by
  have h1 : (gapsIGo none L).1.Sublist L := by
    simpa [stLines] using gapsIGo_sublist L none
  have h2 : (fix_gaps L).1 = (gapsIGo none L).1.filter (fun l => !l.isEmpty) := rfl
  have hf : (gapsIGo none L).1.filter (fun l => !l.isEmpty) = L := by
    rw [← h2, h]
  have h3 : L.length ≤ (gapsIGo none L).1.length := by
    conv_lhs => rw [← hf]
    exact List.Sublist.length_le (List.filter_sublist _)
  have h4 : (gapsIGo none L).1 = L :=
    h1.eq_of_length (Nat.le_antisymm h1.length_le h3)
  have h5 := gapsIGo_len L none
  simp only [stLines, List.nil_append, h4] at h5
  have h6 : (gapsIGo none L).2 = 0 := by omega
  show ((gapsIGo none L).1.filter (fun l => !l.isEmpty), (gapsIGo none L).2) = (L, 0)
  rw [h6, ← h2, h]

theorem wfLines_sublist {M L : List Line} (h : M.Sublist L) (hw : wfLines L) :
    wfLines M := by
  induction h with
  | slnil => exact hw
  | cons a h ih => exact ih (wfLines_tail _ _ hw)
  | cons₂ a h ih =>
    rw [wfLines_cons] at hw ⊢
    obtain ⟨h1, h2, h3⟩ := hw
    refine ⟨h1, fun hne => h2 ?_, ih h3⟩
    intro hcon
    rw [hcon] at h
    exact hne (List.sublist_nil.mp h)

end IndentBot

namespace IndentBot

/-! #### The extra-indent pass: shape preservation and measures -/

theorem indent_lvl_le_length (l : Line) : indent_lvl l ≤ l.length := by
  have h := List.takeWhile_append_dropWhile (p := isIndentChar) (l := l)
  have h2 := congrArg List.length h
  rw [List.length_append] at h2
  show (l.takeWhile isIndentChar).length ≤ l.length
  omega

theorem charSum_cons (l : Line) (t : List Line) :
    charSum (l :: t) = l.length + charSum t := by
  simp [charSum]

theorem cut_wf (x y : Nat) (l : Line) (hxy : x + 1 < y)
    (hy : y ≤ indent_lvl l) :
    cut x y l ≠ [] ∧ (cut x y l).getLast? = l.getLast? ∧
      (cut x y l).dropLast = l.dropLast.take x ++ l.dropLast.drop (y - 1) := by
  have hyl : y ≤ l.length := le_trans hy (indent_lvl_le_length l)
  have hne : l ≠ [] := by
    intro h
    rw [h] at hyl
    simp at hyl
    omega
  have hbc : l = l.dropLast ++ [l.getLast hne] :=
    (List.dropLast_append_getLast hne).symm
  have hblen : y - 1 ≤ l.dropLast.length := by
    rw [List.length_dropLast]
    omega
  have hxb : x ≤ l.dropLast.length := by omega
  have hcut : cut x y l =
      (l.dropLast.take x ++ l.dropLast.drop (y - 1)) ++ [l.getLast hne] := by
    conv_lhs => rw [hbc]
    unfold cut
    rw [List.take_append_of_le_length hxb, List.drop_append_of_le_length hblen,
      List.append_assoc]
  refine ⟨?_, ?_, ?_⟩
  · rw [hcut]
    simp
  · rw [hcut]
    conv_rhs => rw [hbc]
    rw [List.getLast?_concat, List.getLast?_concat]
  · rw [hcut, List.dropLast_concat]

theorem noNl_cut (x y : Nat) (l : Line) (hxy : x + 1 < y)
    (hy : y ≤ indent_lvl l) (h : noNl l.dropLast = true) :
    noNl (cut x y l).dropLast = true := by
  rw [(cut_wf x y l hxy hy).2.2, noNl, List.all_append]
  have hall := List.all_eq_true.mp h
  simp only [Bool.and_eq_true]
  constructor
  · rw [List.all_eq_true]
    intro c hc
    exact hall c (List.mem_of_mem_take hc)
  · rw [List.all_eq_true]
    intro c hc
    exact hall c (List.mem_of_mem_drop hc)

theorem cut_length_le (x y : Nat) (l : Line) (hxy : x + 1 < y) :
    (cut x y l).length ≤ l.length := by
  unfold cut
  rw [List.length_append, List.length_take, List.length_drop]
  omega

theorem cut_length_lt (x y : Nat) (l : Line) (hxy : x + 1 < y)
    (hy : y ≤ indent_lvl l) : (cut x y l).length < l.length := by
  have hyl : y ≤ l.length := le_trans hy (indent_lvl_le_length l)
  unfold cut
  rw [List.length_append, List.length_take, List.length_drop]
  omega

theorem cutRest_len (x y : Nat) : ∀ (M : List Line),
    (cutRest x y M).1.length = M.length := by
  intro M
  induction M with
  | nil => rfl
  | cons l t ih =>
    simp only [cutRest]
    by_cases h : indent_lvl l < y
    · rw [if_pos h]
    · rw [if_neg h]
      simp [ih]

theorem cutRest_wf (x y : Nat) (hxy : x + 1 < y) : ∀ (M : List Line),
    wfLines M → wfLines (cutRest x y M).1 := by
  intro M
  induction M with
  | nil => intro h; exact h
  | cons l t ih =>
    intro hw
    simp only [cutRest]
    by_cases h : indent_lvl l < y
    · rw [if_pos h]
      exact hw
    · rw [if_neg h]
      have hy : y ≤ indent_lvl l := Nat.le_of_not_lt h
      rw [wfLines_cons] at hw ⊢
      obtain ⟨h1, h2, h3⟩ := hw
      refine ⟨noNl_cut x y l hxy hy h1, ?_, ih h3⟩
      intro hne
      rw [(cut_wf x y l hxy hy).2.1]
      apply h2
      intro hcon
      rw [hcon] at hne
      exact hne rfl

theorem cutRest_ne_nil (x y : Nat) (hxy : x + 1 < y) : ∀ (M : List Line),
    [] ∉ M → [] ∉ (cutRest x y M).1 := by
  intro M
  induction M with
  | nil => intro h; exact h
  | cons l t ih =>
    intro hn
    simp only [cutRest]
    by_cases h : indent_lvl l < y
    · rw [if_pos h]
      exact hn
    · rw [if_neg h]
      have hy : y ≤ indent_lvl l := Nat.le_of_not_lt h
      intro hmem
      rcases List.mem_cons.mp hmem with hm | hm
      · exact (cut_wf x y l hxy hy).1 hm.symm
      · exact ih (fun hx => hn (List.mem_cons_of_mem l hx)) hm

theorem cutRest_mu_le (x y : Nat) (hxy : x + 1 < y) : ∀ (M : List Line),
    charSum (cutRest x y M).1 ≤ charSum M := by
  intro M
  induction M with
  | nil => exact Nat.le_refl _
  | cons l t ih =>
    simp only [cutRest]
    by_cases h : indent_lvl l < y
    · rw [if_pos h]
    · rw [if_neg h]
      rw [charSum_cons, charSum_cons]
      have := cut_length_le x y l hxy
      omega

theorem extraGoF_len : ∀ (f : Nat) (prev : Line) (M : List Line),
    (extraGoF f prev M).1.length = M.length := by
  intro f
  induction f with
  | zero => intro prev M; rfl
  | succ f ih =>
    intro prev M
    cases M with
    | nil => rfl
    | cons l rest =>
      simp only [extraGoF]
      by_cases h : indent_lvl prev + 1 < indent_lvl l ∧
          visual_lvl prev + 1 < visual_lvl l
      · rw [if_pos h]
        simp only [List.length_cons]
        rw [ih, cutRest_len]
      · rw [if_neg h]
        simp only [List.length_cons]
        rw [ih]

theorem extraGoF_wf : ∀ (f : Nat) (prev : Line) (M : List Line),
    wfLines M → wfLines (extraGoF f prev M).1 := by
  intro f
  induction f with
  | zero => intro prev M h; exact h
  | succ f ih =>
    intro prev M hw
    cases M with
    | nil => exact hw
    | cons l rest =>
      simp only [extraGoF]
      by_cases h : indent_lvl prev + 1 < indent_lvl l ∧
          visual_lvl prev + 1 < visual_lvl l
      · rw [if_pos h]
        have hxy : indent_lvl prev + 1 < indent_lvl l := h.1
        have hy : indent_lvl l ≤ indent_lvl l := Nat.le_refl _
        rw [wfLines_cons] at hw ⊢
        obtain ⟨h1, h2, h3⟩ := hw
        refine ⟨noNl_cut _ _ l hxy hy h1, ?_,
          ih _ _ (cutRest_wf _ _ hxy rest h3)⟩
        intro hne
        rw [(cut_wf _ _ l hxy hy).2.1]
        apply h2
        intro hcon
        apply hne
        apply List.length_eq_zero.mp
        rw [extraGoF_len, cutRest_len, hcon]
        rfl
      · rw [if_neg h]
        rw [wfLines_cons] at hw ⊢
        obtain ⟨h1, h2, h3⟩ := hw
        refine ⟨h1, ?_, ih _ _ h3⟩
        intro hne
        apply h2
        intro hcon
        apply hne
        apply List.length_eq_zero.mp
        rw [extraGoF_len, hcon]
        rfl

theorem extraGoF_ne_nil : ∀ (f : Nat) (prev : Line) (M : List Line),
    [] ∉ M → [] ∉ (extraGoF f prev M).1 := by
  intro f
  induction f with
  | zero => intro prev M h; exact h
  | succ f ih =>
    intro prev M hn
    cases M with
    | nil => exact hn
    | cons l rest =>
      simp only [extraGoF]
      have hnl : l ≠ [] := by
        intro h
        exact hn (h ▸ List.mem_cons_self l rest)
      have hnr : [] ∉ rest := fun hx => hn (List.mem_cons_of_mem l hx)
      by_cases h : indent_lvl prev + 1 < indent_lvl l ∧
          visual_lvl prev + 1 < visual_lvl l
      · rw [if_pos h]
        intro hmem
        rcases List.mem_cons.mp hmem with hm | hm
        · exact (cut_wf _ _ l h.1 (Nat.le_refl _)).1 hm.symm
        · exact ih _ _ (cutRest_ne_nil _ _ h.1 rest hnr) hm
      · rw [if_neg h]
        intro hmem
        rcases List.mem_cons.mp hmem with hm | hm
        · exact hnl hm.symm
        · exact ih _ _ hnr hm

theorem extraGoF_mu_le : ∀ (f : Nat) (prev : Line) (M : List Line),
    charSum (extraGoF f prev M).1 ≤ charSum M := by
  intro f
  induction f with
  | zero => intro prev M; exact Nat.le_refl _
  | succ f ih =>
    intro prev M
    cases M with
    | nil => exact Nat.le_refl _
    | cons l rest =>
      simp only [extraGoF]
      by_cases h : indent_lvl prev + 1 < indent_lvl l ∧
          visual_lvl prev + 1 < visual_lvl l
      · rw [if_pos h]
        rw [charSum_cons, charSum_cons]
        have h1 := ih (cut (indent_lvl prev) (indent_lvl l) l)
          (cutRest (indent_lvl prev) (indent_lvl l) rest).1
        have h2 := cutRest_mu_le _ _ h.1 rest
        have h3 := cut_length_le _ _ l h.1
        omega
      · rw [if_neg h]
        rw [charSum_cons, charSum_cons]
        have h1 := ih l rest
        omega

theorem extraGoF_mu_eq : ∀ (f : Nat) (prev : Line) (M : List Line),
    charSum (extraGoF f prev M).1 = charSum M →
      extraGoF f prev M = (M, 0) := by
  intro f
  induction f with
  | zero => intro prev M _; rfl
  | succ f ih =>
    intro prev M hmu
    cases M with
    | nil => rfl
    | cons l rest =>
      simp only [extraGoF] at hmu ⊢
      by_cases h : indent_lvl prev + 1 < indent_lvl l ∧
          visual_lvl prev + 1 < visual_lvl l
      · exfalso
        rw [if_pos h] at hmu
        rw [charSum_cons, charSum_cons] at hmu
        have h1 := extraGoF_mu_le f (cut (indent_lvl prev) (indent_lvl l) l)
          (cutRest (indent_lvl prev) (indent_lvl l) rest).1
        have h2 := cutRest_mu_le _ _ h.1 rest
        have h3 := cut_length_lt _ _ l h.1 (Nat.le_refl _)
        omega
      · rw [if_neg h] at hmu ⊢
        rw [charSum_cons, charSum_cons] at hmu
        have h1 := ih l rest (by omega)
        rw [h1]

end IndentBot

namespace IndentBot

/-! #### The style pass: the inner loop and the per-line step -/

theorem noNl_sublist {s t : Line} (h : s.Sublist t) (ht : noNl t = true) :
    noNl s = true := by
  rw [noNl, List.all_eq_true] at ht ⊢
  intro c hc
  exact ht c (h.subset hc)

theorem allInd_sublist {s t : Line} (h : s.Sublist t) (ht : allInd t = true) :
    allInd s = true := by
  rw [allInd, List.all_eq_true] at ht ⊢
  intro c hc
  exact ht c (h.subset hc)

theorem allInd_noNl (s : Line) (h : allInd s = true) : noNl s = true := by
  rw [allInd, List.all_eq_true] at h
  rw [noNl, List.all_eq_true]
  intro c hc
  have := h c hc
  simp only [isIndentChar, Bool.or_eq_true, decide_eq_true_eq] at this
  rcases this with (h1 | h1) | h1 <;> simp [h1]

theorem allInd_indent_text (l : Line) : allInd (indent_text l) = true :=
  List.all_takeWhile

theorem allInd_append (s t : Line) (hs : allInd s = true) (ht : allInd t = true) :
    allInd (s ++ t) = true := by
  rw [allInd, List.all_append]
  rw [allInd] at hs ht
  rw [hs, ht]
  rfl

theorem allInd_single (c : Char) (hc : isIndentChar c = true) :
    allInd [c] = true := by
  simp [allInd, hc]

theorem styleLoop_le (ind : Line) (lvl : Nat) :
    ∀ (mem : List Char) (p2 : Nat) (acc : Line), p2 ≤ lvl →
      (styleLoop ind lvl mem p2 acc).2 ≤ lvl ∧
      p2 ≤ (styleLoop ind lvl mem p2 acc).2 ∧
      (styleLoop ind lvl mem p2 acc).1.length + p2 ≤
        acc.length + (styleLoop ind lvl mem p2 acc).2 := by
  intro mem
  induction mem with
  | nil => intro p2 acc h; exact ⟨h, Nat.le_refl _, Nat.le_refl _⟩
  | cons c1 mrest ih =>
    intro p2 acc h
    simp only [styleLoop]
    by_cases hp : p2 < lvl
    · rw [if_pos hp]
      by_cases hc1 : c1 = '#'
      · rw [if_pos hc1]
        by_cases habs : p2 + 3 ≤ lvl ∧ ind.getD p2 ' ' = ':' ∧
            ind.getD (p2 + 1) ' ' = ':'
        · rw [if_pos habs]
          have h2 := ih (p2 + 2) (acc ++ ['#']) (by omega)
          simp only [List.length_append, List.length_cons,
            List.length_nil] at h2 ⊢
          omega
        · rw [if_neg habs]
          have h2 := ih (p2 + 1) (acc ++ [ind.getD p2 ' ']) (by omega)
          simp only [List.length_append, List.length_cons,
            List.length_nil] at h2 ⊢
          omega
      · rw [if_neg hc1]
        by_cases hc2 : ind.getD p2 ' ' = '#'
        · rw [if_pos hc2]
          have h2 := ih (p2 + 1) (acc ++ [ind.getD p2 ' ']) (by omega)
          simp only [List.length_append, List.length_cons,
            List.length_nil] at h2 ⊢
          omega
        · rw [if_neg hc2]
          have h2 := ih (p2 + 1) (acc ++ [c1]) (by omega)
          simp only [List.length_append, List.length_cons,
            List.length_nil] at h2 ⊢
          omega
    · rw [if_neg hp]
      exact ⟨h, Nat.le_refl _, Nat.le_refl _⟩

theorem styleLoop_acc (ind : Line) (lvl : Nat) :
    ∀ (mem : List Char) (p2 : Nat) (acc : Line),
      ∃ ext, (styleLoop ind lvl mem p2 acc).1 = acc ++ ext ∧
        (mem = [] ∨ lvl ≤ p2 ∨ ext ≠ []) := by
  intro mem
  induction mem with
  | nil =>
    intro p2 acc
    exact ⟨[], by simp [styleLoop], Or.inl rfl⟩
  | cons c1 mrest ih =>
    intro p2 acc
    simp only [styleLoop]
    by_cases hp : p2 < lvl
    · rw [if_pos hp]
      by_cases hc1 : c1 = '#'
      · rw [if_pos hc1]
        by_cases habs : p2 + 3 ≤ lvl ∧ ind.getD p2 ' ' = ':' ∧
            ind.getD (p2 + 1) ' ' = ':'
        · rw [if_pos habs]
          obtain ⟨ext, hext, _⟩ := ih (p2 + 2) (acc ++ ['#'])
          exact ⟨'#' :: ext, by rw [hext]; simp, Or.inr (Or.inr (by simp))⟩
        · rw [if_neg habs]
          obtain ⟨ext, hext, _⟩ := ih (p2 + 1) (acc ++ [ind.getD p2 ' '])
          exact ⟨ind.getD p2 ' ' :: ext, by rw [hext]; simp,
            Or.inr (Or.inr (by simp))⟩
      · rw [if_neg hc1]
        by_cases hc2 : ind.getD p2 ' ' = '#'
        · rw [if_pos hc2]
          obtain ⟨ext, hext, _⟩ := ih (p2 + 1) (acc ++ [ind.getD p2 ' '])
          exact ⟨ind.getD p2 ' ' :: ext, by rw [hext]; simp,
            Or.inr (Or.inr (by simp))⟩
        · rw [if_neg hc2]
          obtain ⟨ext, hext, _⟩ := ih (p2 + 1) (acc ++ [c1])
          exact ⟨c1 :: ext, by rw [hext]; simp, Or.inr (Or.inr (by simp))⟩
    · rw [if_neg hp]
      exact ⟨[], by simp, Or.inr (Or.inl (Nat.le_of_not_lt hp))⟩

theorem styleLoop_allInd (ind : Line) (lvl : Nat) (hind : allInd ind = true)
    (hlvl : lvl ≤ ind.length) :
    ∀ (mem : List Char) (p2 : Nat) (acc : Line), allInd mem = true →
      allInd acc = true → allInd (styleLoop ind lvl mem p2 acc).1 = true := by
  have hget : ∀ p2, p2 < lvl → isIndentChar (ind.getD p2 ' ') = true := by
    intro p2 hp
    have hlt : p2 < ind.length := by omega
    rw [List.getD_eq_getElem ind ' ' hlt]
    exact List.all_eq_true.mp hind _ (List.getElem_mem hlt)
  intro mem
  induction mem with
  | nil => intro p2 acc _ hacc; exact hacc
  | cons c1 mrest ih =>
    intro p2 acc hmem hacc
    have hc1i : isIndentChar c1 = true := by
      rw [allInd, List.all_cons, Bool.and_eq_true] at hmem
      exact hmem.1
    have hmr : allInd mrest = true := by
      rw [allInd, List.all_cons, Bool.and_eq_true] at hmem
      exact hmem.2
    simp only [styleLoop]
    by_cases hp : p2 < lvl
    · rw [if_pos hp]
      by_cases hc1 : c1 = '#'
      · rw [if_pos hc1]
        by_cases habs : p2 + 3 ≤ lvl ∧ ind.getD p2 ' ' = ':' ∧
            ind.getD (p2 + 1) ' ' = ':'
        · rw [if_pos habs]
          exact ih (p2 + 2) _ hmr (allInd_append _ _ hacc (by decide))
        · rw [if_neg habs]
          exact ih (p2 + 1) _ hmr (allInd_append _ _ hacc
            (allInd_single _ (hget p2 hp)))
      · rw [if_neg hc1]
        by_cases hc2 : ind.getD p2 ' ' = '#'
        · rw [if_pos hc2]
          exact ih (p2 + 1) _ hmr (allInd_append _ _ hacc
            (allInd_single _ (hget p2 hp)))
        · rw [if_neg hc2]
          exact ih (p2 + 1) _ hmr (allInd_append _ _ hacc
            (allInd_single _ hc1i))
    · rw [if_neg hp]
      exact hacc

end IndentBot

namespace IndentBot

/-! #### The style pass: per-line shape facts -/

theorem noNl_append (s t : Line) (hs : noNl s = true) (ht : noNl t = true) :
    noNl (s ++ t) = true := by
  rw [noNl, List.all_append]
  rw [noNl] at hs ht
  rw [hs, ht]
  rfl

theorem indent_lvl_lt_of_nl (l : Line) (h : l.getLast? = some '\n') :
    indent_lvl l < l.length := by
  have hle := indent_lvl_le_length l
  rcases Nat.lt_or_ge (indent_lvl l) l.length with hlt | hge
  · exact hlt
  · exfalso
    have heq : (l.takeWhile isIndentChar).length = l.length :=
      Nat.le_antisymm hle hge
    have hsub : (l.takeWhile isIndentChar).Sublist l :=
      (List.takeWhile_prefix isIndentChar).sublist
    have hfull : l.takeWhile isIndentChar = l := hsub.eq_of_length heq
    have hall := List.all_takeWhile (p := isIndentChar) (l := l)
    rw [hfull] at hall
    have hne : l ≠ [] := by
      intro hx
      rw [hx] at h
      simp at h
    have hg := List.getLast?_eq_getLast l hne
    rw [hg] at h
    injection h with h1
    have hmem : '\n' ∈ l := h1 ▸ List.getLast_mem hne
    have := List.all_eq_true.mp hall '\n' hmem
    simp [isIndentChar] at this

theorem style_newLine_mid (p l : Line) (hp : noNl p = true)
    (hmid : l.getLast? = some '\n') (hdl : noNl l.dropLast = true) :
    (p ++ l.drop (indent_lvl l)).getLast? = some '\n' ∧
      noNl (p ++ l.drop (indent_lvl l)).dropLast = true := by
  have hlt := indent_lvl_lt_of_nl l hmid
  have hbc := eq_dropLast_concat_of_getLast l '\n' hmid
  have hble : indent_lvl l ≤ l.dropLast.length := by
    rw [List.length_dropLast]
    omega
  have hdropn : ∀ n, n ≤ l.dropLast.length →
      l.drop n = l.dropLast.drop n ++ ['\n'] := by
    intro n hn
    conv_lhs => rw [hbc]
    exact List.drop_append_of_le_length hn
  have hdrop := hdropn (indent_lvl l) hble
  constructor
  · rw [hdrop, ← List.append_assoc, List.getLast?_concat]
  · rw [hdrop, ← List.append_assoc, List.dropLast_concat]
    exact noNl_append _ _ hp (noNl_sublist (List.drop_sublist _ _) hdl)

theorem style_newLine_end (p l : Line) (hp : noNl p = true)
    (hdl : noNl l.dropLast = true) :
    noNl (p ++ l.drop (indent_lvl l)).dropLast = true := by
  by_cases hlt : indent_lvl l < l.length
  · have hne : l ≠ [] := by
      intro h
      rw [h] at hlt
      simp at hlt
    have hbc : l = l.dropLast ++ [l.getLast hne] :=
      (List.dropLast_append_getLast hne).symm
    have hble : indent_lvl l ≤ l.dropLast.length := by
      rw [List.length_dropLast]
      omega
    have hdropn : ∀ n, n ≤ l.dropLast.length →
        l.drop n = l.dropLast.drop n ++ [l.getLast hne] := by
      intro n hn
      conv_lhs => rw [hbc]
      exact List.drop_append_of_le_length hn
    have hdrop := hdropn (indent_lvl l) hble
    rw [hdrop, ← List.append_assoc, List.dropLast_concat]
    exact noNl_append _ _ hp (noNl_sublist (List.drop_sublist _ _) hdl)
  · have hdrop : l.drop (indent_lvl l) = [] := by
      rw [List.drop_eq_nil_iff]
      omega
    rw [hdrop, List.append_nil]
    exact noNl_sublist (List.dropLast_sublist _) hp

theorem styleNi_spec (d : Nat → Option Line) (minlvl : Nat) (oldInd : Line)
    (hd : ∀ k v, d k = some v → allInd v = true)
    (hold : allInd oldInd = true) :
    allInd (styleNi d minlvl oldInd) = true ∧
    (styleNi d minlvl oldInd).length ≤ oldInd.length ∧
    (oldInd ≠ [] → styleNi d minlvl oldInd ≠ []) := by
  have hmem : allInd (((d minlvl).getD []).take minlvl) = true := by
    cases hdm : d minlvl with
    | none => simp [allInd]
    | some v =>
      exact allInd_sublist (List.take_sublist _ _) (hd _ _ hdm)
  have hloop := styleLoop_le oldInd oldInd.length
    (((d minlvl).getD []).take minlvl) 0 [] (Nat.zero_le _)
  refine ⟨?_, ?_, ?_⟩
  · exact allInd_append _ _
      (styleLoop_allInd oldInd oldInd.length hold (Nat.le_refl _) _ 0 [] hmem rfl)
      (allInd_sublist (List.drop_sublist _ _) hold)
  · show (_ ++ oldInd.drop _).length ≤ _
    rw [List.length_append, List.length_drop]
    simp only [List.length_nil] at hloop
    omega
  · intro hne
    have hlvl : 0 < oldInd.length := List.length_pos.mpr hne
    cases hm : ((d minlvl).getD []).take minlvl with
    | nil =>
      show (styleLoop oldInd oldInd.length (((d minlvl).getD []).take minlvl)
        0 []).1 ++ oldInd.drop _ ≠ []
      rw [hm]
      show ([] : Line) ++ oldInd.drop
        (styleLoop oldInd oldInd.length [] 0 []).2 ≠ []
      show ([] : Line) ++ oldInd.drop 0 ≠ []
      rw [List.nil_append, List.drop_zero]
      exact hne
    | cons c mrest =>
      obtain ⟨ext, hext, hor⟩ := styleLoop_acc oldInd oldInd.length
        (((d minlvl).getD []).take minlvl) 0 []
      have hextne : ext ≠ [] := by
        rcases hor with h1 | h1 | h1
        · rw [hm] at h1
          cases h1
        · omega
        · exact h1
      show (styleLoop oldInd oldInd.length (((d minlvl).getD []).take minlvl)
        0 []).1 ++ oldInd.drop _ ≠ []
      rw [hext, List.nil_append]
      intro hcon
      exact hextne (List.append_eq_nil.mp hcon).1

end IndentBot

namespace IndentBot

/-! #### The style pass: the walk -/

theorem styleNi_nil (d : Nat → Option Line) (m : Nat) : styleNi d m [] = [] := by
  simp only [styleNi]
  rw [List.drop_nil, List.append_nil]
  cases hm : ((d m).getD []).take m with
  | nil => rfl
  | cons c r =>
    show (styleLoop [] ([] : Line).length (c :: r) 0 []).1 = []
    simp only [styleLoop]
    rw [if_neg (by simp)]

theorem indent_text_ne_nil (l : Line) (h : indent_lvl l ≠ 0) :
    indent_text l ≠ [] := by
  intro hc
  apply h
  show (indent_text l).length = 0
  rw [hc]
  rfl

theorem stylePr_spec (d : Nat → Option Line) (pl : Nat) (line : Line)
    (hd : ∀ k v, d k = some v → allInd v = true) :
    allInd (stylePr d pl line).1 = true ∧
    (stylePr d pl line).1.length ≤ indent_lvl line ∧
    (indent_lvl line = 0 → (stylePr d pl line).1 = indent_text line) ∧
    (indent_lvl line ≠ 0 → (stylePr d pl line).1 ≠ []) ∧
    (∀ k v, (stylePr d pl line).2 k = some v → allInd v = true) := by
  simp only [stylePr]
  by_cases ht : startsTable line = true
  · rw [if_pos ht]
    exact ⟨allInd_indent_text line, Nat.le_refl _, fun _ => rfl,
      fun h0 => indent_text_ne_nil line h0, hd⟩
  · rw [if_neg ht]
    by_cases hs : smallNote line = true
    · rw [if_pos hs]
      exact ⟨allInd_indent_text line, Nat.le_refl _, fun _ => rfl,
        fun h0 => indent_text_ne_nil line h0, hd⟩
    · rw [if_neg hs]
      have hni := styleNi_spec d
        (findMinlvl d (min (indent_text line).length pl)) (indent_text line)
        hd (allInd_indent_text line)
      refine ⟨hni.1, hni.2.1, ?_, fun h0 => hni.2.2 (indent_text_ne_nil line h0), ?_⟩
      · intro h0
        have ho : indent_text line = [] := List.length_eq_zero.mp h0
        rw [ho, styleNi_nil]
      · intro k v hkv
        have hkv2 : (if k = (styleNi d
            (findMinlvl d (min (indent_text line).length pl))
            (indent_text line)).length then some (styleNi d
            (findMinlvl d (min (indent_text line).length pl))
            (indent_text line)) else d k) = some v := hkv
        by_cases hk : k = (styleNi d
            (findMinlvl d (min (indent_text line).length pl))
            (indent_text line)).length
        · rw [if_pos hk] at hkv2
          injection hkv2 with h1
          rw [← h1]
          exact hni.1
        · rw [if_neg hk] at hkv2
          exact hd k v hkv2

theorem dictInit_allInd : ∀ (k : Nat) (v : Line),
    dictInit k = some v → allInd v = true := by
  intro k v h
  unfold dictInit at h
  by_cases hk : k = 0
  · rw [if_pos hk] at h
    injection h with h1
    rw [← h1]
    rfl
  · rw [if_neg hk] at h
    cases h

theorem fix_indent_style_go_spec :
    ∀ (M : List Line) (d : Nat → Option Line) (pl : Nat),
      (∀ k v, d k = some v → allInd v = true) →
      (fix_indent_style_go d pl M).1.length = M.length ∧
      charSum (fix_indent_style_go d pl M).1 ≤ charSum M ∧
      ([] ∉ M → [] ∉ (fix_indent_style_go d pl M).1) ∧
      (wfLines M → wfLines (fix_indent_style_go d pl M).1) := by
  intro M
  induction M with
  | nil => intro d pl hd; exact ⟨rfl, Nat.le_refl _, fun h => h, fun h => h⟩
  | cons line rest ih =>
    intro d pl hd
    obtain ⟨hallp, hplen, hzero, hnz, hdpr⟩ := stylePr_spec d pl line hd
    have hD2 : ∀ k v,
        (if indent_lvl line = 0 ∨ has_linebreaking_newline
            ((stylePr d pl line).1 ++ line.drop (indent_lvl line)) then dictInit
          else (stylePr d pl line).2) k = some v → allInd v = true := by
      by_cases hcond : indent_lvl line = 0 ∨ has_linebreaking_newline
          ((stylePr d pl line).1 ++ line.drop (indent_lvl line))
      · rw [if_pos hcond]
        exact dictInit_allInd
      · rw [if_neg hcond]
        exact hdpr
    have hih := ih _ (stylePr d pl line).1.length hD2
    simp only [fix_indent_style_go]
    refine ⟨?_, ?_, ?_, ?_⟩
    · simp only [List.length_cons]
      rw [hih.1]
    · rw [charSum_cons, charSum_cons]
      have h1 : ((stylePr d pl line).1 ++
          line.drop (indent_lvl line)).length ≤ line.length := by
        rw [List.length_append, List.length_drop]
        have := indent_lvl_le_length line
        omega
      have h2 := hih.2.1
      omega
    · intro hn hmem
      have hline : line ≠ [] := by
        intro hc
        exact hn (hc ▸ List.mem_cons_self line rest)
      rcases List.mem_cons.mp hmem with hm | hm
      · by_cases h0 : indent_lvl line = 0
        · have hpnil : (stylePr d pl line).1 = [] := by
            rw [hzero h0, List.length_eq_zero.mp h0]
          rw [hpnil, h0, List.nil_append, List.drop_zero] at hm
          exact hline hm.symm
        · have hpne := hnz h0
          rcases List.append_eq_nil.mp hm.symm with ⟨hc, _⟩
          exact hpne hc
      · exact hih.2.2.1 (fun hx => hn (List.mem_cons_of_mem line hx)) hm
    · intro hw
      rw [wfLines_cons] at hw ⊢
      obtain ⟨h1, h2, h3⟩ := hw
      refine ⟨style_newLine_end _ line (allInd_noNl _ hallp) h1, ?_, hih.2.2.2 h3⟩
      intro hne
      have hrestne : rest ≠ [] := by
        intro hc
        apply hne
        apply List.length_eq_zero.mp
        rw [hih.1, hc]
        rfl
      exact (style_newLine_mid _ line (allInd_noNl _ hallp) (h2 hrestne) h1).1

theorem take_indent_lvl (l : Line) : l.take (indent_lvl l) = indent_text l := by
  show l.take (l.takeWhile isIndentChar).length = l.takeWhile isIndentChar
  generalize hn : (l.takeWhile isIndentChar).length = n
  conv_lhs => rw [← List.takeWhile_append_dropWhile (p := isIndentChar) (l := l)]
  rw [← hn]
  exact List.take_left _ _

theorem style_p_eq (p l : Line) (h : p ++ l.drop (indent_lvl l) = l) :
    p = indent_text l := by
  have hlvl := indent_lvl_le_length l
  have hlen2 := congrArg List.length h
  rw [List.length_append, List.length_drop] at hlen2
  have hpl : p.length = indent_lvl l := by omega
  have htk : l.take p.length = p := by
    conv_lhs => rw [← h]
    exact List.take_left p _
  rw [← htk, hpl, take_indent_lvl]

theorem fix_indent_style_go_id :
    ∀ (M : List Line) (d : Nat → Option Line) (pl : Nat),
      (fix_indent_style_go d pl M).1 = M →
      (fix_indent_style_go d pl M).2 = 0 := by
  intro M
  induction M with
  | nil => intro d pl _; rfl
  | cons line rest ih =>
    intro d pl h
    simp only [fix_indent_style_go] at h ⊢
    rw [List.cons_eq_cons] at h
    obtain ⟨h1, h2⟩ := h
    have hpe : (stylePr d pl line).1 = indent_text line := style_p_eq _ line h1
    rw [if_pos hpe, ih _ _ h2]

end IndentBot

namespace IndentBot

/-! #### The driver: one round and the fixed point -/

theorem triple_ne_nil (M : List Line) : [] ∉ tripleL M := by
  show [] ∉ (fix_indent_style (fix_extra_indents (fix_gaps M).1).1).1
  apply (fix_indent_style_go_spec _ dictInit 0 dictInit_allInd).2.2.1
  apply extraGoF_ne_nil
  intro hmem
  have hmem2 : [] ∈ (gapsIGo none M).1.filter (fun l => !l.isEmpty) := hmem
  rw [List.mem_filter] at hmem2
  simp at hmem2

theorem triple_wf (M : List Line) (h : wfLines M) : wfLines (tripleL M) := by
  show wfLines (fix_indent_style (fix_extra_indents (fix_gaps M).1).1).1
  apply (fix_indent_style_go_spec _ dictInit 0 dictInit_allInd).2.2.2
  apply extraGoF_wf
  exact wfLines_sublist (fix_gaps_sublist M) h

theorem passes_id (L : List Line) (hfix : tripleL L = L) :
    fix_gaps L = (L, 0) ∧ fix_extra_indents L = (L, 0) ∧
      fix_indent_style L = (L, 0) := by
  have hsL : (fix_indent_style (fix_extra_indents (fix_gaps L).1).1).1 = L := hfix
  have hslen : (fix_indent_style (fix_extra_indents (fix_gaps L).1).1).1.length =
      (fix_extra_indents (fix_gaps L).1).1.length :=
    (fix_indent_style_go_spec _ dictInit 0 dictInit_allInd).1
  have helen : (fix_extra_indents (fix_gaps L).1).1.length =
      (fix_gaps L).1.length := extraGoF_len _ _ _
  have hglen : (fix_gaps L).1.length = L.length := by
    have h1 := congrArg List.length hsL
    omega
  have hgL : (fix_gaps L).1 = L := (fix_gaps_sublist L).eq_of_length hglen
  have hgaps : fix_gaps L = (L, 0) := fix_gaps_eq_self L hgL
  rw [hgL] at hsL
  have hsc : charSum (fix_indent_style (fix_extra_indents L).1).1 ≤
      charSum (fix_extra_indents L).1 :=
    (fix_indent_style_go_spec _ dictInit 0 dictInit_allInd).2.1
  have hec : charSum (fix_extra_indents L).1 ≤ charSum L := extraGoF_mu_le _ _ _
  have hceq : charSum (fix_extra_indents L).1 = charSum L := by
    have h2 := congrArg charSum hsL
    omega
  have hextra : fix_extra_indents L = (L, 0) := extraGoF_mu_eq _ _ _ hceq
  have hE1 : (fix_extra_indents L).1 = L := by rw [hextra]
  rw [hE1] at hsL
  have hs2 : (fix_indent_style L).2 = 0 := fix_indent_style_go_id L dictInit 0 hsL
  have hstyle : fix_indent_style L = (L, 0) := by
    have hpair : fix_indent_style L =
        ((fix_indent_style L).1, (fix_indent_style L).2) := rfl
    rw [hpair, hsL, hs2]
  exact ⟨hgaps, hextra, hstyle⟩

theorem tripleS_append_empty (L : List Line)
    (hgaps : fix_gaps L = (L, 0)) (hextra : fix_extra_indents L = (L, 0))
    (hstyle : fix_indent_style L = (L, 0)) :
    tripleS (L ++ [[]]) = (L, 0, 0, 0) := by
  have hg2 : fix_gaps (L ++ [[]]) = (L, 0) := by
    show ((gapsIGo none (L ++ [[]])).1.filter (fun l => !l.isEmpty),
      (gapsIGo none (L ++ [[]])).2) = (L, 0)
    rw [gapsIGo_append_empty L none]
    have hfe : ((gapsIGo none L).1 ++ [[]]).filter (fun l => !l.isEmpty) =
        (gapsIGo none L).1.filter (fun l => !l.isEmpty) := by
      rw [List.filter_append]
      simp
    show (((gapsIGo none L).1 ++ [[]]).filter (fun l => !l.isEmpty),
      (gapsIGo none L).2) = (L, 0)
    rw [hfe]
    exact hgaps
  simp only [tripleS, hg2, hextra, hstyle]

theorem fixLoop_fix : ∀ (f : Nat) (M L : List Line),
    fixLoop f M = some L → tripleL L = L := by
  intro f
  induction f with
  | zero => intro M L h; cases h
  | succ f ih =>
    intro M L h
    simp only [fixLoop] at h
    by_cases hc : tripleL M = M
    · rw [if_pos hc] at h
      injection h with h1
      rw [← h1]
      exact hc
    · rw [if_neg hc] at h
      exact ih _ _ h

theorem fixLoop_wf : ∀ (f : Nat) (M L : List Line),
    wfLines M → fixLoop f M = some L → wfLines L := by
  intro f
  induction f with
  | zero => intro M L _ h; cases h
  | succ f ih =>
    intro M L hw h
    simp only [fixLoop] at h
    by_cases hc : tripleL M = M
    · rw [if_pos hc] at h
      injection h with h1
      rw [← h1]
      exact hw
    · rw [if_neg hc] at h
      exact ih _ _ (triple_wf M hw) h

/-- Claim C1: whenever the `fix_text` loop converges on an input
document (the source's `while` loop carries no bound, so convergence is
the hypothesis), running the full fix a second time on the produced text
returns it unchanged, and on that second run every one of the three
passes reports score zero already in the first round. -/
theorem fix_text_idempotent (d0 : List Char) (f : Nat) (L : List Line)
    (h : fixLoop f (line_partition d0) = some L) :
    fix_text 2 L.flatten = some L.flatten ∧
    tripleS (line_partition L.flatten) = (L, 0, 0, 0) := by
  have hfix : tripleL L = L := fixLoop_fix f _ L h
  have hwf : wfLines L := fixLoop_wf f _ L (wfLines_partition d0) h
  have hp := passes_id L hfix
  have htrip : tripleS L = (L, 0, 0, 0) := by
    simp only [tripleS, hp.1, hp.2.1, hp.2.2]
  have hpart := partition_flatten L hwf
  by_cases hl : (L.getLastD []).getLast? = some '\n'
  · rw [if_pos hl] at hpart
    have ht2 : tripleL (L ++ [[]]) = L := by
      show (tripleS (L ++ [[]])).1 = L
      rw [tripleS_append_empty L hp.1 hp.2.1 hp.2.2]
    have hloop : fixLoop 2 (L ++ [[]]) = some L := by
      show (if tripleL (L ++ [[]]) = (L ++ [[]]) then some (L ++ [[]])
        else fixLoop 1 (tripleL (L ++ [[]]))) = some L
      rw [ht2]
      rw [if_neg (show ¬L = L ++ [[]] by simp)]
      show (if tripleL L = L then some L else fixLoop 0 (tripleL L)) = some L
      rw [if_pos hfix]
    constructor
    · show (fixLoop 2 (line_partition L.flatten)).map List.flatten =
        some L.flatten
      rw [hpart, hloop]
      rfl
    · rw [hpart]
      exact tripleS_append_empty L hp.1 hp.2.1 hp.2.2
  · rw [if_neg hl] at hpart
    by_cases hLnil : L = []
    · rw [if_pos hLnil] at hpart
      subst hLnil
      constructor
      · show (fixLoop 2 (line_partition ([] : List Line).flatten)).map
          List.flatten = some ([] : List Line).flatten
        decide
      · show tripleS (line_partition ([] : List Line).flatten) =
          ([], 0, 0, 0)
        decide
    · rw [if_neg hLnil] at hpart
      have hloop : fixLoop 2 L = some L := by
        show (if tripleL L = L then some L else fixLoop 1 (tripleL L)) = some L
        rw [if_pos hfix]
      constructor
      · show (fixLoop 2 (line_partition L.flatten)).map List.flatten =
          some L.flatten
        rw [hpart, hloop]
        rfl
      · rw [hpart]
        exact htrip

/-- Witness for C1: the document `":a\n"` converges in two rounds to the
single line `":a\n"`; running the fix on that output returns it
unchanged with all three pass scores zero. -/
theorem fix_text_idempotent_witness :
    fixLoop 2 (line_partition ":a\n".toList) = some [":a\n".toList] ∧
    fix_text 2 ([":a\n".toList] : List Line).flatten =
      some ([":a\n".toList] : List Line).flatten ∧
    tripleS (line_partition ([":a\n".toList] : List Line).flatten) =
      ([":a\n".toList], 0, 0, 0) := by
  have h : fixLoop 2 (line_partition ":a\n".toList) = some [":a\n".toList] := by
    decide
  exact ⟨h, (fix_text_idempotent ":a\n".toList 2 [":a\n".toList] h).1,
    (fix_text_idempotent ":a\n".toList 2 [":a\n".toList] h).2⟩

end IndentBot
